import Mathlib

/-!
Verification of the OneZoom tree-build core: a shallow embedding of the
inclusion-token decoder (`oz_tokens.py`), the single-pass Newick parser
(`newick_parser.py`), the subtree extractor (`extract_trees.py`), the
recursive tree assembler (`build_oz_tree.py`), the ultrametricity
checker/fixer (`check_ultrametricity.py`, `fix_ultrametricity.py`) and the
date imputer (`tree_dating.py`), together with theorems settling the
frozen claims about those components.

Strings are modelled as `List Char`; Python numeric values as `ℚ` (or `ℝ`
for the date imputer, which uses `np.exp`).
-/

namespace OneZoom

/-! ## Character classes (Python `re` classes, ASCII reading of `\w`, `\d`) -/

/-- Python regex `\w` (ASCII): letters, digits, underscore. -/
def isWordChar (c : Char) : Bool := c.isAlpha || c.isDigit || c = '_'

/-- Python regex `\d` (ASCII digits). -/
def isDigitChar (c : Char) : Bool := c.isDigit

/-- The class `[\w\-~]` of `full_ott_token` in `oz_tokens.py`. -/
def isNameTokenChar (c : Char) : Bool := isWordChar c || c = '-' || c = '~'

/-- The class `[\d\.]` of the edge-length group of `full_ott_token`. -/
def isFloatTokenChar (c : Char) : Bool := c.isDigit || c = '.'

/-- The class `[-\d]` of group 3 of `ott_details`. -/
def isMinusDigitChar (c : Char) : Bool := c.isDigit || c = '-'

/-- The single-quote character (Python `'`), written via its code point. -/
def quoteChar : Char := Char.ofNat 39

/-! ## `str.split('-')`, as used on group 3 of `ott_details` -/

/-- Python `s.split('-')`: splits on every `'-'`, keeping empty pieces, and
returns `[""]` on the empty string. -/
def pySplitMinus : List Char → List (List Char)
  | [] => [[]]
  | c :: rest =>
    if c = '-' then [] :: pySplitMinus rest
    else
      match pySplitMinus rest with
      | [] => [[c]]
      | g :: gs => (c :: g) :: gs

/-! ## The `ott_details` regex: `(\w+)_ott(\d*)~?([-\d]*)$`, anchored `match` -/

/-- Matches the part of `ott_details` after the literal `_ott`:
`(\d*)~?([-\d]*)$`.  Returns `(group2, group3)` on success.  The greedy
digit run is group 2; an optional single `~` may follow; everything after
must lie in `[-\d]` and forms group 3. -/
def tildeRemainder (r : List Char) : Option (List Char × List Char) :=
  let d := r.takeWhile isDigitChar
  let rest := r.dropWhile isDigitChar
  match rest with
  | [] => some (d, [])
  | c :: rs =>
    if c = '~' then
      if rs.all isMinusDigitChar then some (d, rs) else none
    else
      if (c :: rs).all isMinusDigitChar then some (d, c :: rs) else none

/-- Backtracking search for the split point of `(\w+)_ott…`: Python's
greedy `\w+` means the *largest* prefix length `k` such that the label
continues with the literal `_ott` and the remainder matches
`(\d*)~?([-\d]*)$` wins.  `k` counts down from the length of the maximal
word-character prefix. -/
def ottDetailsAux (s : List Char) : ℕ → Option (List Char × List Char × List Char)
  | 0 => none
  | k + 1 =>
    if (s.drop (k + 1)).take 4 = ['_', 'o', 't', 't'] then
      match tildeRemainder ((s.drop (k + 1)).drop 4) with
      | some (g2, g3) => some (s.take (k + 1), g2, g3)
      | none => ottDetailsAux s k
    else ottDetailsAux s k

/-- `ott_details.match(label)`: returns `(group1, group2, group3)` when the
anchored regex `(\w+)_ott(\d*)~?([-\d]*)$` matches. -/
def ottDetails (s : List Char) : Option (List Char × List Char × List Char) :=
  ottDetailsAux s (s.takeWhile isWordChar).length

/-! ## Decoding one matched label (`oz_tokens.enumerate_one_zoom_tokens`,
tilde/"equal" clause) -/

/-- The decoded fields of one inclusion token that the claims are about:
`node_name_in_parent`, `base_ott` (`some` exactly when `ott_details`
matched, i.e. for reference-taxonomy inclusions) and `excluded_otts`. -/
structure OZDecode where
  nodeNameInParent : List Char
  baseOtt : Option (List Char)
  excludedOtts : List (List Char)
deriving Repr, DecidableEq

/-- The body of `enumerate_one_zoom_tokens` that decodes a matched label
(`full_match.group(1)`): if `ott_details` matches, split group 3 on `-`,
pop the first (possibly empty) number, default the base ott to group 2
when that number is empty, and keep `_ott<base>` in the name exactly when
the number after `~` was empty. -/
def decodeLabel (fullName : List Char) : OZDecode :=
  match ottDetails fullName with
  | none => ⟨fullName, none, []⟩
  | some (g1, g2, g3) =>
    let parts := pySplitMinus g3
    let firstNumberAfterEqual := parts.headI
    let excluded := parts.tail
    let baseOtt := if firstNumberAfterEqual = [] then g2 else firstNumberAfterEqual
    let name :=
      if firstNumberAfterEqual = [] then g1 ++ ('_' :: 'o' :: 't' :: 't' :: baseOtt)
      else g1
    ⟨name, some baseOtt, excluded⟩

/-! ## The `full_ott_token` regex and `finditer` scan -/

/-- One raw match of `full_ott_token = '?([\w\-~]+)@'?(?::([\d\.]+))?`:
match span `[start, stop)`, group 1 (the label) and the raw text of
group 2 (the edge length digits), if present. -/
structure OZMatch where
  start : ℕ
  stop : ℕ
  fullName : List Char
  rawEdge : Option (List Char)
deriving Repr, DecidableEq

/-- Attempt to match `full_ott_token` at position `p` (Python regex
semantics: the optional quote is consumed when present — backtracking it
away cannot help since a quote is not a name character; the name run is
the maximal `[\w\-~]` run; `@` must follow; then an optional quote and an
optional `:<digits/dots>` suffix, the latter only when nonempty). -/
def matchTokenAt (s : List Char) (p : ℕ) : Option OZMatch :=
  let nstart := if s.get? p = some quoteChar then p + 1 else p
  let run := (s.drop nstart).takeWhile isNameTokenChar
  if run = [] then none
  else
    let afterRun := nstart + run.length
    if s.get? afterRun = some '@' then
      let afterAt := afterRun + 1
      let afterQuote := if s.get? afterAt = some quoteChar then afterAt + 1 else afterAt
      if s.get? afterQuote = some ':' then
        let digits := (s.drop (afterQuote + 1)).takeWhile isFloatTokenChar
        if digits = [] then some ⟨p, afterQuote, run, none⟩
        else some ⟨p, afterQuote + 1 + digits.length, run, some digits⟩
      else some ⟨p, afterQuote, run, none⟩
    else none

/-- `finditer` over the tree string: try each position left to right, and
continue after the end of each match.  Fuel-driven; `s.length + 1` fuel is
enough since every step advances the position. -/
def scanTokensAux (s : List Char) : ℕ → ℕ → List OZMatch
  | _, 0 => []
  | p, fuel + 1 =>
    if p < s.length then
      match matchTokenAt s p with
      | some tok => tok :: scanTokensAux s tok.stop fuel
      | none => scanTokensAux s (p + 1) fuel
    else []

/-- One full record yielded by `enumerate_one_zoom_tokens` (the fields the
claims are about; `file`/`override_*`/`expand_nodes` are recovered from
`base_ott` and the mapping table by the assembler embedding below). -/
structure OZRecord where
  start : ℕ
  stop : ℕ
  nodeNameInParent : List Char
  rawEdge : Option (List Char)
  baseOtt : Option (List Char)
  excludedOtts : List (List Char)
deriving Repr, DecidableEq

/-- Decode one raw match into a yielded record. -/
def tokenToRecord (tok : OZMatch) : OZRecord :=
  let d := decodeLabel tok.fullName
  ⟨tok.start, tok.stop, d.nodeNameInParent, tok.rawEdge, d.baseOtt, d.excludedOtts⟩

/-- `start_index = tree.index("]") if "[" in tree else 0`; `none` models the
`ValueError` Python raises when `[` occurs without `]`. -/
def ozStartIndex (s : List Char) : Option ℕ :=
  if '[' ∈ s then (if ']' ∈ s then some (s.indexOf ']') else none) else some 0

/-- `enumerate_one_zoom_tokens(tree)`, as the list of yielded records. -/
def enumerateOneZoomTokens (s : List Char) : Option (List OZRecord) :=
  (ozStartIndex s).map fun st => (scanTokensAux s st (s.length + 1)).map tokenToRecord

/-! ## Python number literals (`float(...)` on edge-length strings) -/

/-- Value of a digit run (most significant first). -/
def digitsToNat (l : List Char) : ℕ := l.foldl (fun a c => 10 * a + (c.toNat - 48)) 0

/-- The optional exponent part of a Python float literal: empty, or
`e`/`E` followed by an optional sign and at least one digit.  Returns the
scale factor. -/
def pyExpPart (l : List Char) : Option ℚ :=
  match l with
  | [] => some 1
  | c :: rest =>
    if c = 'e' ∨ c = 'E' then
      match rest with
      | '+' :: ds => if ds ≠ [] ∧ ds.all isDigitChar then some ((10 : ℚ) ^ digitsToNat ds) else none
      | '-' :: ds => if ds ≠ [] ∧ ds.all isDigitChar then some (((10 : ℚ) ^ digitsToNat ds)⁻¹) else none
      | ds => if ds ≠ [] ∧ ds.all isDigitChar then some ((10 : ℚ) ^ digitsToNat ds) else none
    else none

/-- The unsigned mantissa-and-exponent part of a Python float literal:
`digits [. digits] [exp]` or `. digits [exp]`, needing at least one
mantissa digit. -/
def pyFloatCore (s : List Char) : Option ℚ :=
  let ip := s.takeWhile isDigitChar
  let rest1 := s.dropWhile isDigitChar
  match rest1 with
  | '.' :: rest2 =>
    let fp := rest2.takeWhile isDigitChar
    let rest3 := rest2.dropWhile isDigitChar
    if ip = [] ∧ fp = [] then none
    else
      (pyExpPart rest3).map fun e =>
        ((digitsToNat ip : ℚ) + (digitsToNat fp : ℚ) / (10 : ℚ) ^ fp.length) * e
  | rest2 =>
    if ip = [] then none
    else (pyExpPart rest2).map fun e => (digitsToNat ip : ℚ) * e

/-- Python `float(str)` on the literal forms the Newick parser can meet
(decimal digits, decimal point, optional sign and exponent; `ValueError`
is `none`). -/
def pyFloat (s : List Char) : Option ℚ :=
  match s with
  | '+' :: r => pyFloatCore r
  | '-' :: r => (pyFloatCore r).map Neg.neg
  | _ => pyFloatCore s

/-! ## The Newick micro-parser (`newick_parser.parse_tree`) -/

/-- One record yielded by `parse_tree`. -/
structure NodeRec where
  taxon : Option (List Char)
  ott : Option (List Char)
  edgeLength : ℚ
  start : ℕ
  stop : ℕ
  fullNameStart : ℕ
  depth : ℕ
  isLeaf : Bool
deriving Repr, DecidableEq

/-- Payload of `raise_syntax_error`: the message, plus the parts of the
Python `SyntaxError` tuple that depend on the scan position — offset
`min(index, 20)` and the ±20-character context window
`newick_tree[max(index-20,0) : index+20]`. -/
structure SynErr where
  msg : List Char
  offset : ℕ
  context : List Char
deriving Repr, DecidableEq

/-- Python slice `s[a:b]` for natural bounds. -/
def pySlice (s : List Char) (a b : ℕ) : List Char := (s.take b).drop a

/-- Build the `SyntaxError` payload exactly as `raise_syntax_error` does. -/
def mkSynErr (s : List Char) (index : ℕ) (msg : List Char) : SynErr :=
  ⟨msg, min index 20, pySlice s (index - 20) (index + 20)⟩

/-- `non_name_regex = [,;:\(\)]`. -/
def isNonNameChar (c : Char) : Bool :=
  c = ',' || c = ';' || c = ':' || c = '(' || c = ')'

/-- First index `≥ 0` in a list where `p` holds. -/
def findIdxA (p : Char → Bool) : List Char → Option ℕ
  | [] => none
  | c :: rest => if p c then some 0 else (findIdxA p rest).map (· + 1)

/-- `regex.search(s, i)` / `s.index(ch, i)`: first position `≥ i` where `p`
holds, as an absolute index. -/
def findFrom (p : Char → Bool) (s : List Char) (i : ℕ) : Option ℕ :=
  (findIdxA p (s.drop i)).map (· + i)

/-- The result of `parse_tree`: the yielded nodes plus the final scan
position on normal termination, or the Python exception that escaped
(`SyntaxError` from `raise_syntax_error`, `IndexError` from an
out-of-range `newick_tree[index]`, `ValueError` from `str.index` when a
quote is unmatched).  `outOfFuel` is an artifact of the fuelled loop and
is proved unreachable. -/
inductive ParseResult where
  | ok (nodes : List NodeRec) (finalIndex : ℕ)
  | syntaxError (e : SynErr)
  | indexError
  | valueError
  | outOfFuel
deriving Repr, DecidableEq

/-- Message `expected ',' or ')'`. -/
def expectedSepMsg : List Char :=
  "expected ".data ++ [quoteChar, ',', quoteChar] ++ " or ".data ++ [quoteChar, ')', quoteChar]

/-- Message `expected a semicolon at the end of the tree`. -/
def semicolonMsg : List Char := "expected a semicolon at the end of the tree".data

/-- Message `'<str>' is not a valid edge length`. -/
def badEdgeMsg (lit : List Char) : List Char :=
  [quoteChar] ++ lit ++ [quoteChar] ++ " is not a valid edge length".data

/-- Errors that can escape the name/edge-parsing section of the loop body. -/
inductive StepErr where
  | syn (e : SynErr)
  | idx
  | val
deriving Repr, DecidableEq

/-- Parse the (quoted or unquoted) taxon name starting at `i`: the
`full_name_start_index = index` part of the loop body.  Reading `s[i]` out
of range is an `IndexError`; an unmatched quote is a `ValueError` from
`str.index`.  Returns the taxon (still `none` when the unquoted search
finds nothing) and the new index. -/
def parseName (s : List Char) (i : ℕ) : Except StepErr (Option (List Char) × ℕ) :=
  match s.get? i with
  | none => .error StepErr.idx
  | some c =>
    if c = quoteChar then
      match findFrom (fun d => d = quoteChar) s (i + 1) with
      | none => .error StepErr.val
      | some q => .ok (some (pySlice s (i + 1) q), q + 1)
    else
      match findFrom isNonNameChar s i with
      | some j => .ok (some (pySlice s i j), j)
      | none => .ok (none, i)

/-- Parse the optional `:<number>` edge length at `iMid` (default `0.0`).
A literal `float()` rejects is the corresponding `SyntaxError`, raised at
the index just past the colon, as in the source. -/
def parseEdge (s : List Char) (iMid : ℕ) : Except StepErr (ℚ × ℕ) :=
  match s.get? iMid with
  | none => .error StepErr.idx
  | some c =>
    if c = ':' then
      match findFrom isNonNameChar s (iMid + 1) with
      | some j =>
        match pyFloat (pySlice s (iMid + 1) j) with
        | some v => .ok (v, j)
        | none =>
          .error (StepErr.syn (mkSynErr s (iMid + 1) (badEdgeMsg (pySlice s (iMid + 1) j))))
      | none => .ok (0, iMid + 1)
    else .ok (0, iMid)

/-- The name-then-edge middle of the loop body. -/
def parseNameEdge (s : List Char) (i : ℕ) : Except StepErr (Option (List Char) × ℚ × ℕ) :=
  match parseName s i with
  | .error e => .error e
  | .ok (taxon, iMid) =>
    match parseEdge s iMid with
    | .error e => .error e
    | .ok (v, i2) => .ok (taxon, v, i2)

/-- First index of the substring `_ott` in a taxon name
(`taxon.index('_ott')`). -/
def findOtt : List Char → Option ℕ
  | [] => none
  | c :: rest =>
    match c :: rest with
    | '_' :: 'o' :: 't' :: 't' :: _ => some 0
    | _ => (findOtt rest).map (· + 1)

/-- The `if taxon:`-guarded `_ott` split performed at yield time. -/
def splitOtt (taxon : Option (List Char)) : Option (List Char) × Option (List Char) :=
  match taxon with
  | none => (none, none)
  | some t =>
    if t = [] then (some t, none)
    else
      match findOtt t with
      | some k => (some (t.take k), some (t.drop (k + 4)))
      | none => (some t, none)

/-- The `while True` loop of `parse_tree`, with the scan index, the stack
of open-parenthesis offsets, the `closed_brace` flag and the nodes yielded
so far as explicit state.  One unit of fuel per iteration;
`2 * length + 3` fuel is enough (proved below). -/
def parseLoop (s : List Char) : ℕ → List ℕ → Bool → List NodeRec → ℕ → ParseResult
  | _, _, _, _, 0 => .outOfFuel
  | i, stack, closed, acc, fuel + 1 =>
    match s.get? i with
    | none => .indexError
    | some c =>
      if c = '(' then parseLoop s (i + 1) (i :: stack) closed acc fuel
      else
        -- `if closed_brace: index += 1; node_start_index = index_stack.pop()`
        -- (popping an empty stack would be Python's `IndexError`)
        let pops : Option (ℕ × ℕ × List ℕ) :=
          if closed then
            match stack with
            | [] => none
            | top :: rest => some (i + 1, top, rest)
          else some (i, i, stack)
        match pops with
        | none => .indexError
        | some (i1, nodeStart, stack1) =>
          match parseNameEdge s i1 with
          | .error (.syn e) => .syntaxError e
          | .error .idx => .indexError
          | .error .val => .valueError
          | .ok (taxon, edge, i2) =>
            let txOtt := splitOtt taxon
            let node : NodeRec :=
              ⟨txOtt.1, txOtt.2, edge, nodeStart, i2, i1, stack1.length, !closed⟩
            let acc2 := acc ++ [node]
            if stack1.length = 0 then
              if i2 = s.length then .syntaxError (mkSynErr s i2 semicolonMsg)
              else if s.get? i2 ≠ some ';' then .syntaxError (mkSynErr s i2 semicolonMsg)
              else .ok acc2 i2
            else
              match s.get? i2 with
              | none => .indexError
              | some c2 =>
                if c2 = ',' then parseLoop s (i2 + 1) stack1 false acc2 fuel
                else if c2 = ')' then parseLoop s i2 stack1 true acc2 fuel
                else .syntaxError (mkSynErr s i2 expectedSepMsg)

/-- `parse_tree(newick_tree)`, run to completion. -/
def parseTree (s : List Char) : ParseResult :=
  parseLoop s 0 [] false [] (2 * s.length + 3)

/-- Did the run end normally or in a `SyntaxError` (the only two outcomes
the specification allows)? -/
def ParseResult.isOkOrSyntaxError : ParseResult → Bool
  | .ok _ _ => true
  | .syntaxError _ => true
  | _ => false

/-- A Newick separator character: what the specification calls the
"separators" between the parser's yielded spans. -/
def isSepChar (c : Char) : Bool := c = '(' || c = ',' || c = ')'

/-! ## The subtree extractor (`extract_trees.extract_trees`) -/

/-- Python string indexing with negative wrap-around; `none` is an
`IndexError` (unreachable on the paths the extractor uses on parsed
trees). -/
def pyCharAt (s : List Char) (i : ℤ) : Option Char :=
  if i < 0 then
    if (s.length : ℤ) + i < 0 then none else s.get? ((s.length : ℤ) + i).toNat
  else s.get? i.toNat

/-- `str_to_append`: the requested slice, its start bumped by one when the
output built so far ends in `(` and the slice would begin with `,` (the
"would end up generating `(,`" fix-up). -/
def strToAppend (newick : List Char) (treeString : List Char) (start stop : ℕ) : List Char :=
  let start2 :=
    if treeString ≠ [] ∧ treeString.getLast? = some '(' ∧ newick.get? start = some ','
    then start + 1 else start
  pySlice newick start2 stop

/-- The exclusion range recorded for an excluded node with span
`[start, stop)`: swallow the comma before it when there is one
(`newick_tree[node_start_idx - 1]`, a Python index that wraps to the last
character when `start = 0`), else a comma after it, else just the span. -/
def excludedRangeFor (s : List Char) (start stop : ℕ) : ℕ × ℕ :=
  if pyCharAt s ((start : ℤ) - 1) = some ',' then (start - 1, stop)
  else if pyCharAt s (stop : ℤ) = some ',' then (start, stop + 1)
  else (start, stop)

/-- Keep `excluded_ranges` sorted by start index: Python appends the new
range and re-sorts with a stable sort, which on an already-sorted list is
an ordered insertion after any equal keys. -/
def insertByStart (r : ℕ × ℕ) : List (ℕ × ℕ) → List (ℕ × ℕ)
  | [] => [r]
  | q :: rest => if r.1 < q.1 then r :: q :: rest else q :: insertByStart r rest

/-- The subtree-copy loop of an included node: walk the sorted exclusion
ranges; a range whose start lies strictly inside the span and which ends
past the last skipped point contributes the gap before it and moves the
copy cursor past its end. -/
def copySpanAux (s : List Char) (nodeStart nodeEnd : ℕ) :
    List (ℕ × ℕ) → List Char → ℕ → List Char
  | [], acc, prev => acc ++ strToAppend s acc prev nodeEnd
  | r :: rest, acc, prev =>
    if nodeStart < r.1 ∧ r.1 < nodeEnd ∧ prev < r.2 then
      copySpanAux s nodeStart nodeEnd rest (acc ++ strToAppend s acc prev r.1) r.2
    else copySpanAux s nodeStart nodeEnd rest acc prev

/-- `tree_str` built for an included node with span `[start, stop)`. -/
def copySpan (s : List Char) (nodeStart nodeEnd : ℕ) (ranges : List (ℕ × ℕ)) : List Char :=
  copySpanAux s nodeStart nodeEnd ranges [] nodeStart

/-- Claim-side rendition of the copy loop, written from the claim's words:
copy the node's span while skipping every exclusion range strictly inside
it — for each such range, copy up to its start (never moving backwards)
and resume past its end.  Proved equal to `copySpan`'s loop below. -/
def claimCopy (s : List Char) (nodeStart nodeEnd : ℕ) :
    List (ℕ × ℕ) → ℕ → List Char → List Char
  | [], cursor, acc => acc ++ strToAppend s acc cursor nodeEnd
  | r :: rest, cursor, acc =>
    if nodeStart < r.1 ∧ r.1 < nodeEnd then
      claimCopy s nodeStart nodeEnd rest (max cursor r.2)
        (acc ++ strToAppend s acc cursor (max cursor r.1))
    else claimCopy s nodeStart nodeEnd rest cursor acc

/-- Membership of an optional taxon/ott in a Python set of strings
(`None in {...}` is false). -/
def optMem (o : Option (List Char)) (l : List (List Char)) : Bool :=
  match o with
  | none => false
  | some t => decide (t ∈ l)

/-- One entry of the extractor's `subtrees` list. -/
structure SubtreeRec where
  name : Option (List Char)
  ott : Option (List Char)
  treeString : List Char
  start : ℕ
  ancestorsNeeded : ℕ
deriving Repr, DecidableEq

/-- The extractor's mutable state. -/
structure ExtractState where
  targetTaxa : List (List Char)
  subtrees : List SubtreeRec
  excludedRanges : List (ℕ × ℕ)
  overallAncestorNeeded : ℕ
deriving Repr, DecidableEq

/-- Python `ott or name` used to key the result dictionary. -/
def pyOrStr (a b : Option (List Char)) : Option (List Char) :=
  match a with
  | some t => if t = [] then b else some t
  | none => b

/-- The body of the extractor's `for node in parse_tree(...)` loop:
ancestor wrapping, exclusion-range bookkeeping, then target extraction.
(A `None` taxon in the `")" + taxon` wrap would be a Python `TypeError`;
nodes of a successfully parsed tree always carry a taxon string, so the
`getD []` default is unreachable there.) -/
def extractStep (s : List Char) (excludedTaxa : List (List Char))
    (includedAncestorCount : ℕ) (st : ExtractState) (node : NodeRec) : ExtractState :=
  let wrapped : SubtreeRec → Bool := fun sub =>
    decide (sub.ancestorsNeeded ≠ 0) && decide (node.start < sub.start)
  let subtrees1 :=
    if st.overallAncestorNeeded ≠ 0 then
      st.subtrees.map fun sub =>
        if wrapped sub then
          { sub with
            treeString := '(' :: (sub.treeString ++ (')' :: node.taxon.getD [])),
            ancestorsNeeded := sub.ancestorsNeeded - 1 }
        else sub
    else st.subtrees
  let overall1 :=
    if st.overallAncestorNeeded ≠ 0 then
      st.overallAncestorNeeded - st.subtrees.countP wrapped
    else st.overallAncestorNeeded
  let exR :=
    if optMem node.taxon excludedTaxa || optMem node.ott excludedTaxa then
      insertByStart (excludedRangeFor s node.start node.stop) st.excludedRanges
    else st.excludedRanges
  if optMem node.taxon st.targetTaxa || optMem node.ott st.targetTaxa then
    let removed :=
      if optMem node.taxon st.targetTaxa then st.targetTaxa.erase (node.taxon.getD [])
      else st.targetTaxa.erase (node.ott.getD [])
    let treeStr := copySpan s node.start node.stop exR
    { targetTaxa := removed,
      subtrees := subtrees1 ++
        [⟨node.taxon, node.ott, treeStr, node.start, includedAncestorCount⟩],
      excludedRanges := exR,
      overallAncestorNeeded := overall1 + includedAncestorCount }
  else
    { targetTaxa := st.targetTaxa, subtrees := subtrees1,
      excludedRanges := exR, overallAncestorNeeded := overall1 }

/-- The extractor loop, with the early exit once all targets and all
needed ancestors have been found. -/
def extractLoop (s : List Char) (excludedTaxa : List (List Char))
    (includedAncestorCount : ℕ) : List NodeRec → ExtractState → ExtractState
  | [], st => st
  | node :: rest, st =>
    let st2 := extractStep s excludedTaxa includedAncestorCount st node
    if st2.targetTaxa = [] ∧ st2.overallAncestorNeeded = 0 then st2
    else extractLoop s excludedTaxa includedAncestorCount rest st2

/-- `extract_trees(newick_tree, target_taxa, excluded_taxa,
included_ancestor_count)`: the result dictionary as an association list in
insertion order, keyed by `ott or name`; `none` when the underlying parse
raises. -/
def extractTrees (s : List Char) (targetTaxa excludedTaxa : List (List Char))
    (includedAncestorCount : ℕ) : Option (List (List Char × List Char)) :=
  match parseTree s with
  | ParseResult.ok nodes _ =>
    let final := extractLoop s excludedTaxa includedAncestorCount nodes
      ⟨targetTaxa, [], [], 0⟩
    some (final.subtrees.map fun sub =>
      ((pyOrStr sub.ott sub.name).getD [], sub.treeString))
  | _ => none

/-! ## The tree assembler (`build_oz_tree.py`) -/

/-- One value of the mapping table `token_to_file_map`:
`{file, edge_length, taxon}`. -/
structure MapEntry where
  file : List Char
  edgeLength : Option ℚ
  taxon : Option (List Char)
deriving Repr, DecidableEq

/-- Python `str.strip` whitespace. -/
def isPySpace (c : Char) : Bool :=
  c = ' ' || c = '\t' || c = '\n' || c = '\r' || c = Char.ofNat 11 || c = Char.ofNat 12

/-- Python `str.strip()`. -/
def pyStrip (l : List Char) : List Char :=
  ((l.dropWhile isPySpace).reverse.dropWhile isPySpace).reverse

/-- Python `str.lstrip()`. -/
def pyLStrip (l : List Char) : List Char := l.dropWhile isPySpace

/-- `trim_tree(tree)` (with `strip_semicolon=True`, as the assembler always
calls it): strip whitespace, drop one leading `[...]` comment block, strip
a trailing semicolon.  `none` models the `IndexError` on an empty string
or the `ValueError` of `tree.index("]")`. -/
def trimTree (tree : List Char) : Option (List Char) :=
  let t := pyStrip tree
  match t with
  | [] => none
  | c :: _ =>
    let afterComment : Option (List Char) :=
      if c = '[' then
        if ']' ∈ t then some (pyLStrip (t.drop (t.indexOf ']' + 1))) else none
      else some t
    match afterComment with
    | none => none
    | some t2 =>
      match t2.getLast? with
      | none => none
      | some lastC => if lastC = ';' then some t2.dropLast else some t2

/-- Python `str(x)` for a mapping-table edge length: exact for the
integral values the claims exercise; a non-integral rational renders as
`num/den`, a cosmetic difference no claim depends on. -/
def pyNumStr (q : ℚ) : List Char :=
  if q.den = 1 then (toString q.num).data else (toString q).data

/-- Python `s.split(sep)` for a single-character separator. -/
def pySplitOn (sep : Char) : List Char → List (List Char)
  | [] => [[]]
  | c :: rest =>
    if c = sep then [] :: pySplitOn sep rest
    else
      match pySplitOn sep rest with
      | [] => [[c]]
      | g :: gs => (c :: g) :: gs

/-- `str.rfind`-style search: the index of the last element satisfying
`p`, or `none`. -/
def rfindIdx (p : Char → Bool) (l : List Char) : Option ℕ :=
  (findIdxA p l.reverse).map fun k => l.length - 1 - k

/-- `os.path.join(folder, name)` as used on the parts folders. -/
def joinPath (folder name : List Char) : List Char := folder ++ '/' :: name

/-- `os.path.dirname`. -/
def pyDirname (p : List Char) : List Char :=
  match rfindIdx (fun c => c = '/') p with
  | some k => p.take k
  | none => []

/-- The file system the build reads: path ↦ contents. -/
def fsLookup (fs : List (List Char × List Char)) (p : List Char) : Option (List Char) :=
  (fs.find? fun e => e.1 == p).map (·.2)

/-- `token_to_file_map[name]`, `none` being Python's fatal `KeyError`. -/
def lookupMap (m : List (List Char × MapEntry)) (k : List Char) : Option MapEntry :=
  (m.find? fun p => p.1 == k).map (·.2)

/-- The `name:edge` pair parsed from the text after the last closing
parenthesis of the final chunk: `last_token_segments[0]` and
`last_token_segments[1] if len(...) > 1 else None`. -/
def lastTokenOf (lastChunk : List Char) : List Char × Option (List Char) :=
  let lcb1 : ℕ :=
    match rfindIdx (fun c => c = ')') lastChunk with
    | some k => k + 1
    | none => 0
  let segs := pySplitOn ':' (lastChunk.drop lcb1)
  (segs.headI, segs.get? 1)

/-- The trailer the assembler writes after a fragment's last `)`: the
copied prefix, the chosen node name (`none` would be a Python `TypeError`
at `output_stream.write`) and the chosen edge length — a mapping-table
number (`Sum.inl`) or the file's own trailing text (`Sum.inr`). -/
structure Trailer where
  prefixOut : List Char
  nodeName : Option (List Char)
  edge : Option (Sum ℚ (List Char))
deriving Repr, DecidableEq

/-- The trailer computation at the end of `process_newick`: the
`last_chunk` handling, the edge-length fallback
(`mapping_entry["edge_length"] or last_token_edge_length` — mapping only,
never `edge_length_in_parent`) and the asymmetric node-name fallback
(mapping branch: taxon → file → parent; no-mapping branch: parent → file).
-/
def assembleTrailer (lastChunk : List Char) (nodeNameInParent : Option (List Char))
    (mappingEntry : Option MapEntry) : Trailer :=
  let lcb1 : ℕ :=
    match rfindIdx (fun c => c = ')') lastChunk with
    | some k => k + 1
    | none => 0
  let tk := lastTokenOf lastChunk
  let edge : Option (Sum ℚ (List Char)) :=
    match mappingEntry with
    | some me =>
      match me.edgeLength with
      | some q => if q = 0 then tk.2.map Sum.inr else some (Sum.inl q)
      | none => tk.2.map Sum.inr
    | none => tk.2.map Sum.inr
  let nodeName : Option (List Char) :=
    match mappingEntry with
    | some me => pyOrStr me.taxon (pyOrStr (some tk.1) nodeNameInParent)
    | none => pyOrStr nodeNameInParent (some tk.1)
  ⟨lastChunk.take lcb1, nodeName, edge⟩

/-- Python truthiness of the chosen edge value (`if edge_length:`): a
mapping number is nonzero by construction; a file string is falsy only
when empty. -/
def edgeTruthy : Option (Sum ℚ (List Char)) → Bool
  | none => false
  | some (Sum.inl _) => true
  | some (Sum.inr s) => decide (s ≠ [])

/-- The text written for a chosen edge value. -/
def edgeRender : Sum ℚ (List Char) → List Char
  | Sum.inl q => pyNumStr q
  | Sum.inr s => s

/-- Write the trailer: prefix, node name, then `:<edge>` when truthy. -/
def renderTrailer (t : Trailer) : Option (List Char) :=
  match t.nodeName with
  | none => none
  | some nm =>
    some (t.prefixOut ++ nm ++
      (if edgeTruthy t.edge then ':' :: edgeRender (t.edge.getD (Sum.inr [])) else []))

/-- The build configuration: file system, mapping table and parts
folders. -/
structure BuildCfg where
  fs : List (List Char × List Char)
  mapping : List (List Char × MapEntry)
  otPartsFolder : List Char
  ozPartsFolder : List Char

/-- The warning `Subtree file <file> does not exist`. -/
def missingFileMsg (file : List Char) : List Char :=
  "Subtree file ".data ++ file ++ " does not exist".data

/-- Resolve one token to the child file to read: a reference-taxonomy
token (`base_ott` present) resolves to `<ott>.phy` under the Open Tree
parts folder, falling back to `<ott>.nwk` when the `.phy` is absent, with
no mapping entry and no further expansion; a symbolic token resolves
through the mapping table (`none` is the fatal `KeyError`) under the
OneZoom parts folder, with expansion. -/
def resolveChild (cfg : BuildCfg) (tok : OZRecord) :
    Option (List Char × Option MapEntry × Bool) :=
  match tok.baseOtt with
  | some b =>
    let subPhy := joinPath cfg.otPartsFolder (b ++ ".phy".data)
    let subFile :=
      if (fsLookup cfg.fs subPhy).isSome then subPhy
      else joinPath cfg.otPartsFolder (b ++ ".nwk".data)
    some (subFile, none, false)
  | none =>
    match lookupMap cfg.mapping tok.nodeNameInParent with
    | none => none
    | some cm => some (joinPath cfg.ozPartsFolder cm.file, some cm, true)

/-- Result of one `process_newick` call: the text written to the output
stream, the warnings logged, and the Python return value (`found`);
`err` is an escaped exception (`KeyError`, `IndexError`, `ValueError`,
`TypeError`); `outOfFuel` is the fuel artifact, unreachable with enough
fuel. -/
inductive BuildResult where
  | ok (out : List Char) (warnings : List (List Char)) (found : Bool)
  | err
  | outOfFuel
deriving Repr, DecidableEq

/-- The token loop of `process_newick`: copy the text before each token,
resolve and recurse, then advance past the token on success or leave the
cursor at the token's start on failure; finally assemble and write the
trailer from the remaining chunk. -/
def processTokens (recurse : List Char → Option (List Char) → Option (List Char) →
      Option MapEntry → Bool → BuildResult)
    (cfg : BuildCfg) (tree : List Char) (nodeNameInParent : Option (List Char))
    (mappingEntry : Option MapEntry) :
    List OZRecord → ℕ → List Char → List (List Char) → BuildResult
  | [], index, out, warns =>
    match renderTrailer (assembleTrailer (tree.drop index) nodeNameInParent mappingEntry) with
    | none => BuildResult.err
    | some rendered => BuildResult.ok (out ++ rendered) warns true
  | tok :: rest, index, out, warns =>
    let out1 := out ++ pySlice tree index tok.start
    match resolveChild cfg tok with
    | none => BuildResult.err
    | some (subFile, childMap, expandChild) =>
      match recurse subFile (some tok.nodeNameInParent) tok.rawEdge childMap expandChild with
      | BuildResult.outOfFuel => BuildResult.outOfFuel
      | BuildResult.err => BuildResult.err
      | BuildResult.ok childOut childWarns found =>
        processTokens recurse cfg tree nodeNameInParent mappingEntry rest
          (if found then tok.stop else tok.start) (out1 ++ childOut) (warns ++ childWarns)

/-- `process_newick(file, node_name_in_parent, edge_length_in_parent,
mapping_entry, expand_nodes)`.  `edge_length_in_parent` is threaded
exactly as in the source, where it is used only for optional debug
printing.  A missing file logs one warning and returns `found = False`
without raising. -/
def processNewick (cfg : BuildCfg) :
    ℕ → List Char → Option (List Char) → Option (List Char) → Option MapEntry → Bool →
      BuildResult
  | 0, _, _, _, _, _ => BuildResult.outOfFuel
  | fuel + 1, file, nodeNameInParent, _edgeLengthInParent, mappingEntry, expandNodes =>
    match fsLookup cfg.fs file with
    | none => BuildResult.ok [] [missingFileMsg file] false
    | some content =>
      match trimTree content with
      | none => BuildResult.err
      | some tree =>
        match (if expandNodes then enumerateOneZoomTokens tree else some []) with
        | none => BuildResult.err
        | some tokens =>
          processTokens (processNewick cfg fuel) cfg tree nodeNameInParent mappingEntry
            tokens 0 [] []

/-- `build_oz_tree(base_file, ot_parts_folder, ...)`: the OneZoom parts
folder is the directory of the base file; the base call expands tokens
with no parent name, edge length, or mapping entry. -/
def buildOzTree (fs : List (List Char × List Char))
    (mapping : List (List Char × MapEntry)) (baseFile otPartsFolder : List Char)
    (fuel : ℕ) : BuildResult :=
  processNewick ⟨fs, mapping, otPartsFolder, pyDirname baseFile⟩ fuel
    baseFile none none none true

/-- The file a token resolves to (defined when `resolveChild` succeeds). -/
def resolvedFile (cfg : BuildCfg) (tok : OZRecord) : List Char :=
  match resolveChild cfg tok with
  | some (sf, _, _) => sf
  | none => []

/-- The text the token loop emits when every token's resolved file is
missing: each token's preceding gap is copied with the cursor left at the
token's own start, so the token text itself flows into the next copied
chunk, and the final chunk (from the last token's start) goes through the
trailer assembly.  `none` when the trailer's node name would be `None`. -/
def allMissingOut (tree : List Char) (nip : Option (List Char)) (me : Option MapEntry) :
    List OZRecord → ℕ → Option (List Char)
  | [], index => renderTrailer (assembleTrailer (tree.drop index) nip me)
  | tok :: rest, index =>
    (allMissingOut tree nip me rest tok.start).map (pySlice tree index tok.start ++ ·)

/-! ## Dendropy trees and the ultrametricity checker/fixer
(`check_ultrametricity.py`, `fix_ultrametricity.py`) -/

/-- A dendropy tree node: a leaf's Newick label becomes its `taxon`; an
internal node's label stays in `label` (dendropy's default Newick reading
suppresses internal-node taxa); `edgeLength` is the length of the edge
above the node. -/
inductive NTree where
  | node : Option (List Char) → Option (List Char) → Option ℚ → List NTree → NTree
deriving Repr

/-- The taxon of a node. -/
def NTree.taxon : NTree → Option (List Char)
  | .node t _ _ _ => t

/-- The label of a node. -/
def NTree.label : NTree → Option (List Char)
  | .node _ l _ _ => l

/-- The edge length above a node. -/
def NTree.edgeLength : NTree → Option ℚ
  | .node _ _ e _ => e

/-- The children of a node. -/
def NTree.children : NTree → List NTree
  | .node _ _ _ cs => cs

/-- `get_taxon_name(node)`: the taxon label when a taxon is attached, else
`Root` for the seed node, `(Unnamed node)` for an internal node, and
`<parent label> (Extinct)` for a taxonless leaf (Python renders a missing
parent label as `None`). -/
def getTaxonName (taxon parentLabel : Option (List Char)) (isRoot hasChildren : Bool) :
    List Char :=
  match taxon with
  | some t => t
  | none =>
    if isRoot then "Root".data
    else if hasChildren then "(Unnamed node)".data
    else
      (match parentLabel with
       | some l => l
       | none => "None".data) ++ " (Extinct)".data

/-- Rational addition computed through `mkRat` (definitionally
evaluable; equal to `+` by `qAdd_eq`). -/
def qAdd (a b : ℚ) : ℚ := mkRat (a.num * b.den + b.num * a.den) (a.den * b.den)

/-- Rational subtraction computed through `mkRat` (equal to `-` by
`qSub_eq`). -/
def qSub (a b : ℚ) : ℚ := mkRat (a.num * b.den - b.num * a.den) (a.den * b.den)

/-- Rational absolute value computed through `mkRat` (equal to `|·|` by
`qAbs_eq`). -/
def qAbs (a : ℚ) : ℚ := mkRat (Int.ofNat a.num.natAbs) a.den

/-- `q * 10 ^ nd` computed through `mkRat` (equal to it by
`qScale_eq`). -/
def qScale (q : ℚ) (nd : ℕ) : ℚ := mkRat (q.num * 10 ^ nd) q.den

/-- Sum of a list of rationals via `qAdd` (equal to `List.sum` by
`qSum_eq`). -/
def qSum (l : List ℚ) : ℚ := l.foldr qAdd 0

/-- Round-half-to-even of a rational, Python's `round` tie rule: the
floor `f` satisfies `q - f < 1/2` iff `2*(num - f*den) < den`, so the
comparison runs on integers and the kernel can evaluate it. -/
def bankersRound (q : ℚ) : ℤ :=
  let n := q.num
  let d : ℤ := q.den
  let f := Int.fdiv n d
  let r2 := 2 * (n - f * d)
  if r2 < d then f
  else if d < r2 then f + 1
  else if f % 2 = 0 then f else f + 1

/-- Python `round(x, nd)` over exact rationals. -/
def pyRound (q : ℚ) (nd : ℕ) : ℚ :=
  mkRat (bankersRound (qScale q nd)) (10 ^ nd)

deriving instance DecidableEq for Except

/-- Structural (fuelled) Boolean equality of forests of dendropy trees;
`beqForest 0 _ _` conservatively answers `false`. -/
def beqForest : ℕ → List NTree → List NTree → Bool
  | 0, _, _ => false
  | _ + 1, [], [] => true
  | fuel + 1, NTree.node t1 l1 e1 cs1 :: r1, NTree.node t2 l2 e2 cs2 :: r2 =>
    decide (t1 = t2) && decide (l1 = l2) && decide (e1 = e2)
      && beqForest fuel cs1 cs2 && beqForest fuel r1 r2
  | _ + 1, _, _ => false

/-- Fuelled Boolean equality of dendropy trees. -/
def beqNT (fuel : ℕ) (a b : NTree) : Bool :=
  beqForest fuel [a] [b]

/-- The checker's mutable state: the first recorded (truthy) total, the
leaf it came from, and the non-ultrametric finding, stored as
`(leaf, total, first leaf, first total)` (the source formats these into a
message string; only its truthiness is ever tested). -/
structure CheckSt where
  known : Option ℚ
  initialName : List Char
  msg : Option (List Char × ℚ × List Char × ℚ)
deriving Repr, DecidableEq

/-- The leaf branch of the checker's `process_node`: the `if not
known_total_length` truthiness test treats a recorded total of `0` the
same as no recorded total, re-establishing the baseline; otherwise a
mismatching total produces the non-ultrametric finding (only the first
one is kept).  (The `age_instances` statistics dictionary only feeds a
print and is not modelled.) -/
def leafUpdate (st : CheckSt) (name : List Char) (total : ℚ) : CheckSt :=
  if st.known = none ∨ st.known = some 0 then
    { st with known := some total, initialName := name }
  else if st.msg = none then
    if st.known ≠ some total then
      { st with msg := some (name, total, st.initialName, (st.known.getD 0)) }
    else st
  else st

/-- The recursive descent of `check_ultrametricity.process_node` over a
list of sibling subtrees: each child's edge (`or 0`) is pushed onto the
running path before the child is processed.  Fuelled; `none` is the
out-of-fuel artifact. -/
def checkGo : ℕ → List NTree → Option (List Char) → List ℚ → CheckSt → Option CheckSt
  | 0, _, _, _, _ => none
  | _ + 1, [], _, _, st => some st
  | fuel + 1, NTree.node taxon label edge children :: siblings, parentLabel, lens, st =>
    let lens2 := lens ++ [edge.getD 0]
    let name := getTaxonName taxon parentLabel false (!children.isEmpty)
    let thisRes : Option CheckSt :=
      if name.getLast? = some '@' then some st
      else if children.isEmpty then
        match edge with
        | none => some st
        | some _ => some (leafUpdate st name (pyRound (qSum lens2) 10))
      else checkGo fuel children label lens2 st
    match thisRes with
    | none => none
    | some st2 => checkGo fuel siblings parentLabel lens st2

/-- `check_ultrametricity(tree)`: process the seed node (whose own edge is
never pushed), then report `not non_ultrametric_message`. -/
def checkUltrametricity (fuel : ℕ) (root : NTree) : Option Bool :=
  let st0 : CheckSt := ⟨none, [], none⟩
  let res : Option CheckSt :=
    match root with
    | .node taxon label edge children =>
      let name := getTaxonName taxon none true (!children.isEmpty)
      if name.getLast? = some '@' then some st0
      else if children.isEmpty then
        match edge with
        | none => some st0
        | some _ => some (leafUpdate st0 name (pyRound (qSum []) 10))
      else checkGo fuel children label [] st0
  res.map fun st => st.msg.isNone

/-- The recursive descent of `fix_ultrametricity.process_node` over a list
of sibling subtrees.  The parent loop first rounds each child's non-`None`
edge to 6 decimal places, extends the running length with the rounded
value (`or 0`), and then processes the child: an `@`-named child is left
alone (its subtree untouched), a leaf with a known edge is adjusted by the
signed difference to the expected length unless that difference exceeds
the tolerance (`Except.error`, the aborting exception), and an internal
node recurses.  Fuelled; `none` is the out-of-fuel artifact. -/
def fixGo : ℕ → List NTree → Option (List Char) → ℚ → ℚ → ℚ →
    Option (Except Unit (List NTree))
  | 0, _, _, _, _, _ => none
  | _ + 1, [], _, _, _, _ => some (Except.ok [])
  | fuel + 1, NTree.node taxon label edge children :: siblings, parentLabel,
      lsf, expected, maxAdj =>
    let edge2 := edge.map (fun q => pyRound q 6)
    let lsf2 := qAdd lsf (edge2.getD 0)
    let name := getTaxonName taxon parentLabel false (!children.isEmpty)
    let thisRes : Option (Except Unit NTree) :=
      if name.getLast? = some '@' then some (Except.ok (NTree.node taxon label edge2 children))
      else if children.isEmpty then
        match edge2 with
        | none => some (Except.ok (NTree.node taxon label edge2 children))
        | some e2 =>
          if lsf2 ≠ expected then
            if maxAdj < qAbs (qSub lsf2 expected) then some (Except.error ())
            else
              some (Except.ok
                (NTree.node taxon label (some (pyRound (qSub (qAdd e2 expected) lsf2) 6)) children))
          else some (Except.ok (NTree.node taxon label edge2 children))
      else
        match fixGo fuel children label lsf2 expected maxAdj with
        | none => none
        | some (Except.error e) => some (Except.error e)
        | some (Except.ok cs2) => some (Except.ok (NTree.node taxon label edge2 cs2))
    match thisRes with
    | none => none
    | some (Except.error e) => some (Except.error e)
    | some (Except.ok t2) =>
      match fixGo fuel siblings parentLabel lsf expected maxAdj with
      | none => none
      | some (Except.error e) => some (Except.error e)
      | some (Except.ok ts) => some (Except.ok (t2 :: ts))

/-- `fix_ultrametricity(tree, expected_length, max_adjustment)`: process
the seed node with `length_so_far = 0` (the seed's own edge is neither
rounded nor added). -/
def fixUltrametricity (fuel : ℕ) (root : NTree) (expected maxAdj : ℚ) :
    Option (Except Unit NTree) :=
  match root with
  | .node taxon label edge children =>
    let name := getTaxonName taxon none true (!children.isEmpty)
    if name.getLast? = some '@' then some (Except.ok root)
    else if children.isEmpty then
      match edge with
      | none => some (Except.ok root)
      | some e =>
        if (0 : ℚ) ≠ expected then
          if maxAdj < qAbs (qSub 0 expected) then some (Except.error ())
          else
            some (Except.ok
              (NTree.node taxon label (some (pyRound (qSub (qAdd e expected) 0) 6)) children))
        else some (Except.ok root)
    else
      match fixGo fuel children label 0 expected maxAdj with
      | none => none
      | some (Except.error e) => some (Except.error e)
      | some (Except.ok cs2) => some (Except.ok (NTree.node taxon label edge cs2))

/-- The claim-side qualifying-leaf test for the fixer, traversing exactly
the nodes the fixer visits: does some visited leaf with a known (rounded)
edge length and a name not marking an unexpanded inclusion point have a
rounded root-to-leaf sum that differs from the expected length and is
further from it than the tolerance?  (On dendropy-parsed trees no internal
node carries a taxon, so no internal name ends in `@` and "visited leaf"
is every leaf not itself `@`-named.) -/
def anyBadLeaf : ℕ → List NTree → Option (List Char) → ℚ → ℚ → ℚ → Option Bool
  | 0, _, _, _, _, _ => none
  | _ + 1, [], _, _, _, _ => some false
  | fuel + 1, NTree.node taxon label edge children :: siblings, parentLabel,
      lsf, expected, maxAdj =>
    let edge2 := edge.map (fun q => pyRound q 6)
    let lsf2 := qAdd lsf (edge2.getD 0)
    let name := getTaxonName taxon parentLabel false (!children.isEmpty)
    let thisBad : Option Bool :=
      if name.getLast? = some '@' then some false
      else if children.isEmpty then
        match edge2 with
        | none => some false
        | some _ => some (decide (lsf2 ≠ expected ∧ maxAdj < qAbs (qSub lsf2 expected)))
      else anyBadLeaf fuel children label lsf2 expected maxAdj
    match thisBad with
    | none => none
    | some b =>
      match anyBadLeaf fuel siblings parentLabel lsf expected maxAdj with
      | none => none
      | some b2 => some (b || b2)

/-- The dendropy reading of `(A:0,B:5)C;`: leaf labels become taxa, the
internal label `C` stays a label, the seed node has no edge length. -/
def ultraCheckExample : NTree :=
  NTree.node none (some "C".data) none
    [NTree.node (some "A".data) none (some 0) [],
     NTree.node (some "B".data) none (some 5) []]

/-- A chain `R → I → L` with edge lengths `0.10000005` (internal) and
`0.89999995` (leaf): the rounded path sum is exactly `1`, so no leaf
adjustment is needed. -/
def fixExampleIn : NTree :=
  NTree.node none (some "R".data) none
    [NTree.node none (some "I".data) (some (mkRat 10000005 100000000))
      [NTree.node (some "L".data) none (some (mkRat 89999995 100000000)) []]]

/-- The fixer's output for `fixExampleIn` with expected length `1`: the
internal edge was rounded to `0.1` and the leaf edge to `0.9` even though
no adjustment was needed. -/
def fixExampleOut : NTree :=
  NTree.node none (some "R".data) none
    [NTree.node none (some "I".data) (some (mkRat 1 10))
      [NTree.node (some "L".data) none (some (mkRat 9 10)) []]]

/-! ## Tree dating (`tree_build/tree_dating.py`)

Python floats become real numbers here (the code runs `np.exp`, so the
embedding is necessarily non-executable; concrete runs are evaluated with
`simp`). -/

/-- An ete3 tree as `date_tree` consumes it: every node carries a `date`
property that is a number or `None`. -/
inductive DTree where
  | node : Option ℝ → List DTree → DTree

/-- The date of a node. -/
def DTree.date : DTree → Option ℝ
  | .node d _ => d

/-- The children of a node. -/
def DTree.children : DTree → List DTree
  | .node _ cs => cs

/-- A tree as `date_labelling` leaves it: each node also carries its
stored `oldest_path_long` and `oldest_path_short` pairs
`(oldest date below, path length to it)` (the source keeps them as
two-element lists; the path length is integer-valued throughout). -/
inductive LTree where
  | node : Option ℝ → ℝ × ℤ → ℝ × ℤ → List LTree → LTree

/-- A fully dated tree as `impute_missing_dates` leaves it. -/
inductive ITree where
  | node : ℝ → List ITree → ITree

/-- The date of an imputed node. -/
def ITree.date : ITree → ℝ
  | .node d _ => d

/-- The children of an imputed node. -/
def ITree.children : ITree → List ITree
  | .node _ cs => cs

/-- A tree with branch lengths as `compute_branch_lengths` leaves it
(date, `dist`, children). -/
inductive BTree where
  | node : ℝ → ℝ → List BTree → BTree

open scoped Classical in
/-- Python `max(a, b)` on the two-element lists `[date, length]`:
lexicographic, and `a` is kept on a tie. -/
noncomputable def pyMaxPair (a b : ℝ × ℤ) : ℝ × ℤ :=
  if a.1 < b.1 ∨ (a.1 = b.1 ∧ a.2 < b.2) then b else a

open scoped Classical in
/-- Python `max(a, b, key=use_shortest_path)` with
`use_shortest_path x = [x[0], -x[1]]`: oldest date first, then the
shortest path; `a` is kept on a tie. -/
noncomputable def pyMaxShortPair (a b : ℝ × ℤ) : ℝ × ℤ :=
  if a.1 < b.1 ∨ (a.1 = b.1 ∧ b.2 < a.2) then b else a

/-- The postorder sweep of `date_labelling` over a list of sibling
subtrees, accumulating the running `oldest_path_long`/`oldest_path_short`
maxima (the caller seeds them with the sentinels `[0, -1e8]` and
`[0, 1e8]`).  Produces the labelled siblings plus the final accumulators.
A dated node stores `[date, 0]` and returns `[date, 1]`; an undated
internal node stores the accumulated pair and returns it with the length
bumped by one; an undated leaf hits Python's unbound
`oldest_path_long` (`NameError`), modelled as `none`.  Fuelled; `none`
also stands for fuel exhaustion. -/
noncomputable def labelForest : ℕ → List DTree → ℝ × ℤ → ℝ × ℤ →
    Option (List LTree × (ℝ × ℤ) × (ℝ × ℤ))
  | 0, _, _, _ => none
  | _ + 1, [], accL, accS => some ([], accL, accS)
  | fuel + 1, DTree.node date children :: rest, accL, accS =>
    let nodeRes : Option (LTree × (ℝ × ℤ) × (ℝ × ℤ)) :=
      if children.isEmpty then
        match date with
        | none => none
        | some d => some (LTree.node date (d, 0) (d, 0) [], (d, 1), (d, 1))
      else
        match labelForest fuel children (0, -100000000) (0, 100000000) with
        | none => none
        | some (lcs, opl, ops) =>
          match date with
          | none =>
            some (LTree.node date opl ops lcs, (opl.1, opl.2 + 1), (ops.1, ops.2 + 1))
          | some d => some (LTree.node date (d, 0) (d, 0) lcs, (d, 1), (d, 1))
    match nodeRes with
    | none => none
    | some (lt, retL, retS) =>
      match labelForest fuel rest (pyMaxPair accL retL) (pyMaxShortPair accS retS) with
      | none => none
      | some (lts, accL2, accS2) => some (lt :: lts, accL2, accS2)

/-- `date_labelling(tre)`: label the root node (its siblings list is a
singleton; the top-level return value is discarded by `date_tree`). -/
noncomputable def dateLabelling (fuel : ℕ) (t : DTree) : Option LTree :=
  match labelForest fuel [t] (0, -100000000) (0, 100000000) with
  | some (lt :: _, _, _) => some lt
  | _ => none

/-- `np.sum(np.exp(m * np.linspace(0, 1, k + 1)))`: the sample points are
`i / k` for `i = 0, …, k`, and for `k = 0` the single point `0` (Lean's
`i / 0 = 0` gives the same value). -/
noncomputable def expSum (m : ℝ) (k : ℕ) : ℝ :=
  (Finset.range (k + 1)).sum fun i => Real.exp (m * ((i : ℝ) / (k : ℝ)))

/-- `mu_spacing[-(k+1)]`, the first entry of
`np.cumsum(mu / np.sum(mu))` for the `k+1`-point spacing array:
`exp(0) / S = 1 / S`. -/
noncomputable def muFraction (m : ℝ) (k : ℕ) : ℝ := 1 / expSum m k

/-- The preorder sweep of `impute_missing_dates` over sibling subtrees:
a dated node keeps its date, an undated node interpolates between the
long-path and short-path solutions
`A - (A - oldest) * muFraction` with weight `l`, where `A` is the (by
then imputed) parent date.  The stored path length is integer-valued and
non-negative whenever the labelling ran on a tree with non-negative
dates; `Int.toNat` models it (`np.linspace` would raise on a negative
count, which the claims' preconditions rule out).  Fuelled. -/
noncomputable def imputeForest (l m : ℝ) : ℕ → List LTree → ℝ → Option (List ITree)
  | 0, _, _ => none
  | _ + 1, [], _ => some []
  | fuel + 1, LTree.node date opl ops children :: rest, parentDate =>
    let d : ℝ :=
      match date with
      | some d0 => d0
      | none =>
        let dl := parentDate - (parentDate - opl.1) * muFraction m opl.2.toNat
        let ds := parentDate - (parentDate - ops.1) * muFraction m ops.2.toNat
        l * dl + (1 - l) * ds
    match imputeForest l m fuel children d with
    | none => none
    | some ics =>
      match imputeForest l m fuel rest parentDate with
      | none => none
      | some irest => some (ITree.node d ics :: irest)

/-- `impute_missing_dates(tre, l, m)`: the root is visited first; an
undated root would dereference `node.up` (which is `None`), modelled as
`none`. -/
noncomputable def imputeTree (l m : ℝ) (fuel : ℕ) (t : LTree) : Option ITree :=
  match t with
  | LTree.node date _ _ children =>
    match date with
    | none => none
    | some d =>
      match imputeForest l m fuel children d with
      | none => none
      | some ics => some (ITree.node d ics)

open scoped Classical in
/-- The sweep of `compute_branch_lengths` over sibling subtrees below a
dated parent: `branch_length = parent.date - node.date`, raising
(`Except.error`) on a negative result, else storing it as `dist`.
Fuelled. -/
noncomputable def cblForest : ℕ → List ITree → ℝ → Option (Except Unit (List BTree))
  | 0, _, _ => none
  | _ + 1, [], _ => some (Except.ok [])
  | fuel + 1, ITree.node d cs :: rest, parentDate =>
    if parentDate - d < 0 then some (Except.error ())
    else
      match cblForest fuel cs d with
      | none => none
      | some (Except.error e) => some (Except.error e)
      | some (Except.ok bcs) =>
        match cblForest fuel rest parentDate with
        | none => none
        | some (Except.error e) => some (Except.error e)
        | some (Except.ok brest) =>
          some (Except.ok (BTree.node d (parentDate - d) bcs :: brest))

/-- `compute_branch_lengths(tre)`: the root has no parent and keeps its
default `dist`; every other node gets `parent.date - node.date`. -/
noncomputable def computeBranchLengths (fuel : ℕ) (t : ITree) :
    Option (Except Unit (ℝ × List BTree)) :=
  match t with
  | ITree.node d cs =>
    match cblForest fuel cs d with
    | none => none
    | some (Except.error e) => some (Except.error e)
    | some (Except.ok bcs) => some (Except.ok (d, bcs))

/-- The claim's precondition on every non-root node: leaves are dated
`0`, internal nodes are undated. -/
inductive Proper : DTree → Prop where
  | leaf : Proper (DTree.node (some 0) [])
  | internal (cs : List DTree) (h : ∀ c ∈ cs, Proper c) (hne : cs ≠ []) :
      Proper (DTree.node none cs)

/-- What `date_labelling` guarantees on every non-root node of a
`Proper` tree: leaves keep date `0` and store `(0, 0)`; undated internal
nodes store pairs with oldest date `0` and path length at least `1`. -/
inductive LabelledLT : LTree → Prop where
  | leaf : LabelledLT (LTree.node (some 0) (0, 0) (0, 0) [])
  | internal (opl ops : ℝ × ℤ) (cs : List LTree) :
      opl.1 = 0 → 1 ≤ opl.2 → ops.1 = 0 → 1 ≤ ops.2 →
      (∀ c ∈ cs, LabelledLT c) →
      LabelledLT (LTree.node none opl ops cs)

/-- Dates below a bound `A` are sandwiched: each node's date lies in
`[0, A]` and its children's dates lie below its own. -/
inductive OrderedIT : ℝ → ITree → Prop where
  | mk (A d : ℝ) (cs : List ITree) :
      0 ≤ d → d ≤ A → (∀ c ∈ cs, OrderedIT d c) → OrderedIT A (ITree.node d cs)

/-- Position `p` lies in the name-trailer segment
`[full_name_start_index, end)` of one of the records. -/
def InSomeSeg (nodes : List NodeRec) (p : ℕ) : Prop :=
  ∃ n ∈ nodes, n.fullNameStart ≤ p ∧ p < n.stop

/-- The span-bookkeeping invariant of the scan: every yielded record's
name-trailer segment is well formed and closed off before the current
index, segments appear in scan order, and every position already passed
that lies in no segment holds a separator character. -/
def SpanInv (s : List Char) (i : ℕ) (nodes : List NodeRec) : Prop :=
  (∀ n ∈ nodes, n.fullNameStart ≤ n.stop ∧ n.stop ≤ i) ∧
  List.Pairwise (fun a b => a.stop ≤ b.fullNameStart) nodes ∧
  (∀ p, p < i → ¬ InSomeSeg nodes p → ∃ c, s.get? p = some c ∧ isSepChar c = true)

end OneZoom

/-! # Part 2: theorems -/

namespace OneZoom

/-! ### List scanning lemmas -/

theorem pySplitMinus_ne_nil (l : List Char) : pySplitMinus l ≠ [] := by
  induction l with
  | nil => simp [pySplitMinus]
  | cons c rest ih =>
    simp only [pySplitMinus]
    split
    · simp
    · match h : pySplitMinus rest with
      | [] => simp
      | g :: gs => simp

theorem takeWhile_all_append (p : Char → Bool) (w r : List Char)
    (hw : w.all p = true) (hr : ∀ c, r.head? = some c → p c = false) :
    (w ++ r).takeWhile p = w := by
  induction w with
  | nil =>
    cases r with
    | nil => rfl
    | cons c cs =>
      have := hr c rfl
      simp [List.takeWhile, this]
  | cons a w ih =>
    simp only [List.all_cons, Bool.and_eq_true] at hw
    simp [List.takeWhile, hw.1, ih hw.2]

theorem dropWhile_all_append (p : Char → Bool) (w r : List Char)
    (hw : w.all p = true) (hr : ∀ c, r.head? = some c → p c = false) :
    (w ++ r).dropWhile p = r := by
  induction w with
  | nil =>
    cases r with
    | nil => rfl
    | cons c cs =>
      have := hr c rfl
      simp [List.dropWhile, this]
  | cons a w ih =>
    simp only [List.all_cons, Bool.and_eq_true] at hw
    simp [List.dropWhile, hw.1, ih hw.2]

theorem pySplitMinus_noMinus_append (xs l : List Char) (hxs : ∀ c ∈ xs, c ≠ '-') :
    pySplitMinus (xs ++ l) =
      (xs ++ (pySplitMinus l).headI) :: (pySplitMinus l).tail := by
  induction xs with
  | nil =>
    simp only [List.nil_append]
    match h : pySplitMinus l, pySplitMinus_ne_nil l with
    | g :: gs, _ => simp
  | cons c xs ih =>
    have hc : c ≠ '-' := hxs c (by simp)
    have ih := ih (fun d hd => hxs d (by simp [hd]))
    simp only [List.cons_append, pySplitMinus, if_neg hc, List.append_eq, ih]

theorem pySplitMinus_glued (first : List Char) (exs : List (List Char))
    (h1 : ∀ c ∈ first, c ≠ '-') (h2 : ∀ e ∈ exs, ∀ c ∈ e, c ≠ '-') :
    pySplitMinus (first ++ (exs.map (fun e => '-' :: e)).flatten) = first :: exs := by
  induction exs generalizing first with
  | nil =>
    rw [List.map_nil, List.flatten_nil, pySplitMinus_noMinus_append first [] h1]
    simp [pySplitMinus]
  | cons e rest ih =>
    have he : ∀ c ∈ e, c ≠ '-' := h2 e (by simp)
    have hrest : ∀ x ∈ rest, ∀ c ∈ x, c ≠ '-' := fun x hx => h2 x (by simp [hx])
    rw [List.map_cons, List.flatten_cons, pySplitMinus_noMinus_append first _ h1]
    have step : pySplitMinus (('-' :: e) ++ (rest.map (fun x => '-' :: x)).flatten)
        = [] :: (e :: rest) := by
      have := ih e he hrest
      simp only [List.cons_append, pySplitMinus, if_pos rfl, List.append_eq]
      rw [this]
      simp
    simp only [List.append_assoc] at step ⊢
    rw [step]
    simp

/-! ### `ott_details` on grammar-shaped labels -/

theorem isWordChar_of_isDigitChar {c : Char} (h : isDigitChar c = true) :
    isWordChar c = true := by
  simp only [isDigitChar] at h
  simp [isWordChar, h]

theorem ne_underscore_of_isDigitChar {c : Char} (h : isDigitChar c = true) :
    c ≠ '_' := by
  intro heq
  subst heq
  simp [isDigitChar] at h

theorem ne_underscore_of_isMinusDigitChar {c : Char} (h : isMinusDigitChar c = true) :
    c ≠ '_' := by
  intro heq
  subst heq
  simp [isMinusDigitChar, isDigitChar] at h

theorem minusFlat_all (exs : List (List Char))
    (hexs : ∀ e ∈ exs, e.all isDigitChar = true) :
    ((exs.map fun e => '-' :: e).flatten).all isMinusDigitChar = true := by
  induction exs with
  | nil => rfl
  | cons e rest ih =>
    have he := hexs e (by simp)
    simp only [List.map_cons, List.flatten_cons, List.all_append, List.all_cons,
      Bool.and_eq_true]
    refine ⟨⟨by decide, ?_⟩, ih fun x hx => hexs x (by simp [hx])⟩
    simp only [List.all_eq_true] at he ⊢
    intro c hc
    have hd : c.isDigit = true := by simpa [isDigitChar] using he c hc
    simp [isMinusDigitChar, hd]

theorem rest_all_isMinusDigit (first : List Char) (exs : List (List Char))
    (hfirst : first.all isDigitChar = true)
    (hexs : ∀ e ∈ exs, e.all isDigitChar = true) :
    (first ++ (exs.map fun e => '-' :: e).flatten).all isMinusDigitChar = true := by
  rw [List.all_append, Bool.and_eq_true]
  refine ⟨?_, minusFlat_all exs hexs⟩
  simp only [List.all_eq_true] at hfirst ⊢
  intro c hc
  have hd : c.isDigit = true := by simpa [isDigitChar] using hfirst c hc
  simp [isMinusDigitChar, hd]

theorem ottDetailsAux_descend (s : List Char) (base : ℕ) :
    ∀ j, (∀ i, 1 ≤ i → i ≤ j → (s.drop (base + i)).take 4 ≠ ['_', 'o', 't', 't']) →
    ottDetailsAux s (base + j) = ottDetailsAux s base := by
  intro j
  induction j with
  | zero => intro _; rfl
  | succ j ih =>
    intro h
    have hfail := h (j + 1) (by omega) (le_refl _)
    show ottDetailsAux s (base + j + 1) = _
    rw [ottDetailsAux, if_neg (by exact hfail)]
    exact ih fun i h1 h2 => h i h1 (by omega)

theorem ottDetails_grammar (nm ds first : List Char) (exs : List (List Char))
    (hnm : nm ≠ []) (hw : nm.all isWordChar = true) (hds : ds.all isDigitChar = true)
    (hfirst : first.all isDigitChar = true)
    (hexs : ∀ e ∈ exs, e.all isDigitChar = true) :
    ottDetails
        (nm ++ ('_' :: 'o' :: 't' :: 't' :: ds) ++
          '~' :: (first ++ (exs.map fun e => '-' :: e).flatten))
      = some (nm, ds, first ++ (exs.map fun e => '-' :: e).flatten) := by
  set rest := first ++ (exs.map fun e => '-' :: e).flatten with hrest
  have hrestAll : rest.all isMinusDigitChar = true := rest_all_isMinusDigit first exs hfirst hexs
  set label := nm ++ ('_' :: 'o' :: 't' :: 't' :: ds) ++ '~' :: rest with hlabel
  have hdsWord : ds.all isWordChar = true := by
    simp only [List.all_eq_true] at hds ⊢
    exact fun c hc => isWordChar_of_isDigitChar (hds c hc)
  have hwp : label.takeWhile isWordChar = nm ++ ('_' :: 'o' :: 't' :: 't' :: ds) := by
    have hassoc : label = (nm ++ ('_' :: 'o' :: 't' :: 't' :: ds)) ++ '~' :: rest := by
      simp [hlabel, List.append_assoc]
    rw [hassoc]
    apply takeWhile_all_append
    · simp only [List.all_append, List.all_cons, Bool.and_eq_true]
      exact ⟨hw, by decide, by decide, by decide, by decide, hdsWord⟩
    · intro c hc
      simp only [List.head?_cons, Option.some.injEq] at hc
      subst hc
      decide
  have hwpLen : (nm ++ ('_' :: 'o' :: 't' :: 't' :: ds)).length
      = nm.length + (4 + ds.length) := by
    simp [List.length_append, List.length_cons]
    omega
  -- no character of the label strictly after position nm.length is an underscore,
  -- up to the start of `rest`, and none in `rest` either
  have hdropBase : label.drop nm.length = ('_' :: 'o' :: 't' :: 't' :: ds) ++ '~' :: rest := by
    have : label = nm ++ (('_' :: 'o' :: 't' :: 't' :: ds) ++ '~' :: rest) := by
      simp [hlabel, List.append_assoc]
    rw [this, List.drop_left]
  have hU : ∀ c ∈ ('o' :: 't' :: 't' :: ds) ++ '~' :: rest, c ≠ '_' := by
    intro c hc
    simp only [List.mem_append, List.mem_cons] at hc
    rcases hc with (rfl | rfl | rfl | hds') | (rfl | hrest')
    · decide
    · decide
    · decide
    · exact ne_underscore_of_isDigitChar (by simpa using List.all_eq_true.1 hds c hds')
    · decide
    · exact ne_underscore_of_isMinusDigitChar
        (by simpa using List.all_eq_true.1 hrestAll c hrest')
  have hfails : ∀ i, 1 ≤ i → i ≤ 4 + ds.length →
      (label.drop (nm.length + i)).take 4 ≠ ['_', 'o', 't', 't'] := by
    intro i h1 _ htake
    have hdropi : label.drop (nm.length + i)
        = (('o' :: 't' :: 't' :: ds) ++ '~' :: rest).drop (i - 1) := by
      rw [← List.drop_drop, hdropBase]
      have e2 : i = (i - 1) + 1 := by omega
      rw [e2, show ('_' :: 'o' :: 't' :: 't' :: ds ++ '~' :: rest)
        = '_' :: (('o' :: 't' :: 't' :: ds) ++ '~' :: rest) from rfl, List.drop_succ_cons]
      congr 1
    have hmem : ('_' : Char) ∈ ('o' :: 't' :: 't' :: ds) ++ '~' :: rest := by
      have h1' : ('_' : Char) ∈ (label.drop (nm.length + i)).take 4 := by
        rw [htake]; simp
      have h2' : ('_' : Char) ∈ label.drop (nm.length + i) :=
        (List.take_sublist _ _).mem h1'
      rw [hdropi] at h2'
      exact (List.drop_sublist _ _).mem h2'
    exact hU '_' hmem rfl
  unfold ottDetails
  rw [hwp, hwpLen, ottDetailsAux_descend label nm.length (4 + ds.length) hfails]
  obtain ⟨n0, hn0⟩ : ∃ n0, nm.length = n0 + 1 := by
    cases nm with
    | nil => exact absurd rfl hnm
    | cons a l => exact ⟨l.length, rfl⟩
  rw [hn0, ottDetailsAux, ← hn0]
  have htake4 : (label.drop nm.length).take 4 = ['_', 'o', 't', 't'] := by
    rw [hdropBase]; rfl
  rw [if_pos htake4]
  have hdrop4 : (label.drop nm.length).drop 4 = ds ++ '~' :: rest := by
    rw [hdropBase]; rfl
  rw [hdrop4]
  have htilde : tildeRemainder (ds ++ '~' :: rest) = some (ds, rest) := by
    unfold tildeRemainder
    have ht : (ds ++ '~' :: rest).takeWhile isDigitChar = ds :=
      takeWhile_all_append _ _ _ hds (by intro c hc; simp at hc; subst hc; decide)
    have hd : (ds ++ '~' :: rest).dropWhile isDigitChar = '~' :: rest :=
      dropWhile_all_append _ _ _ hds (by intro c hc; simp at hc; subst hc; decide)
    rw [ht, hd]
    simp [hrestAll]
  rw [htilde]
  have htakeNm : label.take nm.length = nm := by
    have : label = nm ++ (('_' :: 'o' :: 't' :: 't' :: ds) ++ '~' :: rest) := by
      simp [hlabel, List.append_assoc]
    rw [this, List.take_left]
  rw [htakeNm]

theorem decodeLabel_grammar (nm ds first : List Char) (exs : List (List Char))
    (hnm : nm ≠ []) (hw : nm.all isWordChar = true) (hds : ds.all isDigitChar = true)
    (hfirst : first.all isDigitChar = true)
    (hexs : ∀ e ∈ exs, e ≠ [] ∧ e.all isDigitChar = true) :
    decodeLabel
        (nm ++ ('_' :: 'o' :: 't' :: 't' :: ds) ++
          '~' :: (first ++ (exs.map fun e => '-' :: e).flatten))
      = ⟨(if first = [] then nm ++ ('_' :: 'o' :: 't' :: 't' :: ds) else nm),
         some (if first = [] then ds else first), exs⟩ := by
  have hexs' : ∀ e ∈ exs, e.all isDigitChar = true := fun e he => (hexs e he).2
  unfold decodeLabel
  rw [ottDetails_grammar nm ds first exs hnm hw hds hfirst hexs']
  have hnom : ∀ c ∈ first, c ≠ '-' := by
    intro c hc heq
    subst heq
    have := List.all_eq_true.1 hfirst _ hc
    simp [isDigitChar] at this
  have hnomE : ∀ e ∈ exs, ∀ c ∈ e, c ≠ '-' := by
    intro e he c hc heq
    subst heq
    have := List.all_eq_true.1 (hexs' e he) _ hc
    simp [isDigitChar] at this
  simp only [pySplitMinus_glued first exs hnom hnomE, List.headI, List.tail]
  by_cases hf : first = []
  · simp [hf]
  · simp [hf]

/-- Claim C1: for every node label matching the inclusion-token grammar
`<name>_ott<digits>~<first>(-<digits>)*`, the decoding step of
`enumerate_one_zoom_tokens` makes the first (possibly empty) number after
`~` the `base_ott` (defaulting to the `_ott` digits when empty) and each
subsequent `-<digits>` entry an excluded ott; in particular
`foobar_ott123~-789-111@` decodes to base ott `123`, excluded otts
`789`, `111` and `node_name_in_parent` `foobar_ott123`, while
`foobar_ott~456-789-111@` decodes to base ott `456`, the same excluded
otts, and `node_name_in_parent` `foobar`. -/
theorem claim_C1_token_decoding :
    (∀ (nm ds first : List Char) (exs : List (List Char)),
      nm ≠ [] → nm.all isWordChar = true → ds.all isDigitChar = true →
      first.all isDigitChar = true →
      (∀ e ∈ exs, e ≠ [] ∧ e.all isDigitChar = true) →
      decodeLabel (nm ++ ('_' :: 'o' :: 't' :: 't' :: ds) ++
          '~' :: (first ++ (exs.map fun e => '-' :: e).flatten))
        = ⟨(if first = [] then nm ++ ('_' :: 'o' :: 't' :: 't' :: ds) else nm),
           some (if first = [] then ds else first), exs⟩)
    ∧ enumerateOneZoomTokens "foobar_ott123~-789-111@".data
        = some [⟨0, 23, "foobar_ott123".data, none, some "123".data,
                 ["789".data, "111".data]⟩]
    ∧ enumerateOneZoomTokens "foobar_ott~456-789-111@".data
        = some [⟨0, 23, "foobar".data, none, some "456".data,
                 ["789".data, "111".data]⟩] :=
  ⟨decodeLabel_grammar, by decide, by decide⟩

/-! ### Micro-parser scan-position bounds and fuel sufficiency -/

theorem get?_some_lt {s : List Char} {i : ℕ} {c : Char} (h : s.get? i = some c) :
    i < s.length := by
  rcases Nat.lt_or_ge i s.length with h1 | h1
  · exact h1
  · rw [List.get?_eq_none.2 h1] at h
    cases h

theorem findIdxA_some_lt {p : Char → Bool} {l : List Char} {k : ℕ}
    (h : findIdxA p l = some k) : k < l.length := by
  induction l generalizing k with
  | nil => simp [findIdxA] at h
  | cons c rest ih =>
    simp only [findIdxA] at h
    split at h
    · cases h
      simp
    · match hm : findIdxA p rest with
      | none => rw [hm] at h; simp at h
      | some k0 =>
        rw [hm] at h
        simp only [Option.map_some'] at h
        cases h
        have := ih hm
        simp only [List.length_cons]
        omega

theorem findFrom_some {p : Char → Bool} {s : List Char} {i j : ℕ}
    (h : findFrom p s i = some j) : i ≤ j ∧ j < s.length := by
  unfold findFrom at h
  match hm : findIdxA p (s.drop i) with
  | none => rw [hm] at h; simp at h
  | some k =>
    rw [hm] at h
    simp only [Option.map_some'] at h
    cases h
    have hk := findIdxA_some_lt hm
    rw [List.length_drop] at hk
    omega

theorem parseName_ok {s : List Char} {i iMid : ℕ} {t : Option (List Char)}
    (h : parseName s i = .ok (t, iMid)) :
    i < s.length ∧ i ≤ iMid ∧ iMid ≤ s.length := by
  unfold parseName at h
  split at h
  · cases h
  · rename_i c hg
    have hi := get?_some_lt hg
    split at h
    · split at h
      · cases h
      · rename_i q hq
        cases h
        have := findFrom_some hq
        omega
    · split at h
      · rename_i j hq
        cases h
        have := findFrom_some hq
        omega
      · cases h
        omega

theorem parseEdge_ok {s : List Char} {iMid i2 : ℕ} {v : ℚ}
    (h : parseEdge s iMid = .ok (v, i2)) :
    iMid < s.length ∧ iMid ≤ i2 ∧ i2 ≤ s.length := by
  unfold parseEdge at h
  split at h
  · cases h
  · rename_i c hg
    have hi := get?_some_lt hg
    split at h
    · split at h
      · rename_i j hq
        have := findFrom_some hq
        split at h
        · cases h
          omega
        · cases h
      · cases h
        omega
    · cases h
      omega

theorem parseNameEdge_ok {s : List Char} {i i2 : ℕ} {t : Option (List Char)} {v : ℚ}
    (h : parseNameEdge s i = .ok (t, v, i2)) :
    i < s.length ∧ i ≤ i2 ∧ i2 ≤ s.length := by
  unfold parseNameEdge at h
  split at h
  · cases h
  · rename_i taxon iMid hn
    split at h
    · cases h
    · rename_i v0 j2 he
      cases h
      have h1 := parseName_ok hn
      have h2 := parseEdge_ok he
      omega

theorem parseLoop_no_outOfFuel (s : List Char) :
    ∀ fuel i stack closed acc,
      i ≤ s.length →
      2 * (s.length + 1 - i) + (if closed then 0 else 1) ≤ fuel →
      parseLoop s i stack closed acc fuel ≠ ParseResult.outOfFuel := by
  intro fuel
  induction fuel with
  | zero =>
    intro i stack closed acc hi hm
    exfalso
    cases closed <;> simp at hm <;> omega
  | succ fuel ih =>
    intro i stack closed acc hi hm
    have hmTrue : closed = true → 2 * (s.length + 1 - i) ≤ fuel + 1 := by
      intro h
      rw [h] at hm
      simpa using hm
    have hmFalse : closed = false → 2 * (s.length + 1 - i) + 1 ≤ fuel + 1 := by
      intro h
      rw [h] at hm
      simpa using hm
    simp only [parseLoop]
    split
    · simp
    · rename_i c hg
      have hiL : i < s.length := get?_some_lt hg
      split
      · apply ih (i + 1) _ closed acc (by omega)
        cases closed with
        | true => have := hmTrue rfl; simp; omega
        | false => have := hmFalse rfl; simp; omega
      · split
        · simp
        · rename_i i1 nodeStart stack1 hpops
          have hi1a : i ≤ i1 ∧ (closed = true → i + 1 ≤ i1) := by
            cases closed with
            | true =>
              cases stack with
              | nil => simp at hpops
              | cons top rest =>
                simp only [if_pos rfl] at hpops
                obtain ⟨h1, h2, h3⟩ := by simpa using hpops
                exact ⟨by omega, fun _ => by omega⟩
            | false =>
              obtain ⟨h1, h2, h3⟩ := by simpa using hpops
              exact ⟨by omega, fun h => by cases h⟩
          split
          · simp
          · simp
          · simp
          · rename_i taxon edge i2 hpe
            have hb := parseNameEdge_ok hpe
            split
            · split
              · simp
              · split <;> simp
            · split
              · simp
              · rename_i c2 hg2
                have hi2L : i2 < s.length := get?_some_lt hg2
                have h2 : 2 * (s.length + 1 - i) ≤ fuel + 1 := by
                  cases closed with
                  | true => exact hmTrue rfl
                  | false => have := hmFalse rfl; omega
                have h3 : closed = true → 2 * (s.length - i) ≤ fuel := by
                  intro h
                  have := hmTrue h
                  have := hi1a.2 h
                  omega
                split
                · apply ih (i2 + 1) _ false _ (by omega)
                  show 2 * (s.length + 1 - (i2 + 1)) + 1 ≤ fuel
                  cases closed with
                  | true =>
                    have := hi1a.2 rfl
                    have := hmTrue rfl
                    omega
                  | false =>
                    have := hmFalse rfl
                    have := hi1a.1
                    omega
                · split
                  · apply ih i2 _ true _ (by omega)
                    show 2 * (s.length + 1 - i2) + 0 ≤ fuel
                    cases closed with
                    | true =>
                      have := hi1a.2 rfl
                      have := hmTrue rfl
                      omega
                    | false =>
                      have := hmFalse rfl
                      have := hi1a.1
                      omega
                  · simp

theorem parseTree_not_outOfFuel (s : List Char) : parseTree s ≠ ParseResult.outOfFuel := by
  apply parseLoop_no_outOfFuel s (2 * s.length + 3) 0 [] false [] (by omega)
  show 2 * (s.length + 1 - 0) + 1 ≤ 2 * s.length + 3
  omega

theorem inSomeSeg_mono {nodes : List NodeRec} {n : NodeRec} {p : ℕ}
    (h : InSomeSeg nodes p) : InSomeSeg (nodes ++ [n]) p := by
  obtain ⟨m, hm, hp⟩ := h
  exact ⟨m, by simp [hm], hp⟩

/-- Span bookkeeping through the scan: whenever the loop terminates
normally, the name-trailer segments of the yielded records satisfy the
invariant at the final index, which then points at the terminating
semicolon. -/
theorem parseLoop_ok_inv (s : List Char) :
    ∀ fuel i stack closed acc nodes fin,
      parseLoop s i stack closed acc fuel = ParseResult.ok nodes fin →
      SpanInv s i acc →
      (closed = true → s.get? i = some ')') →
      SpanInv s fin nodes ∧ s.get? fin = some ';' := by
  intro fuel
  induction fuel with
  | zero =>
    intro i stack closed acc nodes fin h
    cases h
  | succ fuel ih =>
    intro i stack closed acc nodes fin h hInv hcl
    simp only [parseLoop] at h
    split at h
    · cases h
    · rename_i c hg
      split at h
      · rename_i hpar
        subst hpar
        refine ih (i + 1) _ closed acc nodes fin h ?_ ?_
        · obtain ⟨hb, hp, hc⟩ := hInv
          refine ⟨fun n hn => ⟨(hb n hn).1, by have := (hb n hn).2; omega⟩, hp, ?_⟩
          intro p hp2 hnot
          rcases Nat.lt_or_ge p i with h1 | h1
          · exact hc p h1 hnot
          · have hpi : p = i := by omega
            subst hpi
            exact ⟨'(', hg, by decide⟩
        · intro hcl2
          have := hcl hcl2
          rw [hg] at this
          cases this
      · split at h
        · cases h
        · rename_i i1 nodeStart stack1 hpops
          have hkey : i ≤ i1 ∧
              (∀ p, p < i1 → ¬ InSomeSeg acc p →
                ∃ c0, s.get? p = some c0 ∧ isSepChar c0 = true) := by
            cases closed with
            | true =>
              cases stack with
              | nil => simp at hpops
              | cons top rest =>
                simp only [if_pos rfl] at hpops
                obtain ⟨h1, h2, h3⟩ := by simpa using hpops
                constructor
                · omega
                · intro p hp hnot
                  rcases Nat.lt_or_ge p i with hlt | hge
                  · exact hInv.2.2 p hlt hnot
                  · have hpi : p = i := by omega
                    subst hpi
                    exact ⟨')', hcl rfl, by decide⟩
            | false =>
              obtain ⟨h1, h2, h3⟩ := by simpa using hpops
              subst h1
              exact ⟨le_refl _, fun p hp hnot => hInv.2.2 p hp hnot⟩
          split at h
          · cases h
          · cases h
          · cases h
          · rename_i taxon edge i2 hpe
            have hb := parseNameEdge_ok hpe
            -- the invariant after yielding the new node, at index i2
            have hInv2 : SpanInv s i2
                (acc ++ [⟨(splitOtt taxon).1, (splitOtt taxon).2, edge, nodeStart, i2,
                  i1, stack1.length, !closed⟩]) := by
              obtain ⟨hbd, hpw, hcv⟩ := hInv
              refine ⟨?_, ?_, ?_⟩
              · intro n hn
                rcases List.mem_append.1 hn with hn1 | hn1
                · have := hbd n hn1
                  omega
                · simp at hn1
                  subst hn1
                  simp
                  omega
              · rw [List.pairwise_append]
                refine ⟨hpw, by simp, ?_⟩
                intro a ha b hb2
                simp at hb2
                subst hb2
                have := hbd a ha
                simp
                omega
              · intro p hp2 hnot
                rcases Nat.lt_or_ge p i1 with hlt | hge
                · refine hkey.2 p hlt fun hin => hnot (inSomeSeg_mono hin)
                · exfalso
                  apply hnot
                  refine ⟨⟨(splitOtt taxon).1, (splitOtt taxon).2, edge, nodeStart, i2,
                    i1, stack1.length, !closed⟩, by simp, ?_, ?_⟩
                  · simpa using hge
                  · simpa using hp2
            split at h
            · split at h
              · cases h
              · split at h
                · cases h
                · rename_i hsemi
                  cases h
                  exact ⟨hInv2, not_ne_iff.1 hsemi⟩
            · split at h
              · cases h
              · rename_i c2 hg2
                split at h
                · rename_i hc2
                  subst hc2
                  refine ih (i2 + 1) _ false _ nodes fin h ?_ (by intro h2; cases h2)
                  obtain ⟨hbd2, hpw2, hcv2⟩ := hInv2
                  refine ⟨fun n hn => ⟨(hbd2 n hn).1, by have := (hbd2 n hn).2; omega⟩,
                    hpw2, ?_⟩
                  intro p hp2 hnot
                  rcases Nat.lt_or_ge p i2 with h1 | h1
                  · exact hcv2 p h1 hnot
                  · have hpi : p = i2 := by omega
                    subst hpi
                    exact ⟨',', hg2, by decide⟩
                · split at h
                  · rename_i hc2b
                    subst hc2b
                    exact ih i2 _ true _ nodes fin h hInv2 (fun _ => hg2)
                  · cases h

/-- Claim C4 as frozen is false: on the input `(A)` — a missing trailing
semicolon after a closed parenthesis — `parse_tree` raises neither nothing
nor a `SyntaxError`; it reads `newick_tree[3]` past the end of the input
and raises an `IndexError`. -/
theorem claim_C4_counterexample :
    ParseResult.isOkOrSyntaxError (parseTree "(A)".data) = false := by decide

/-- Claim C4 (amended): for every input string, `parse_tree` terminates
with one of four outcomes — normal termination (which happens only with
the paren stack empty and the scan position holding `;`), a `SyntaxError`
carrying the ±20-character context window, or an `IndexError`/`ValueError`
when it reads past the end of the input or finds no closing quote.  In a
`;`-terminated tree, extra open parentheses, extra close parentheses and a
bad edge-length literal raise `SyntaxError`, as does a missing semicolon
after a complete top-level node; but a truncated input such as `(A)`
raises `IndexError` instead. -/
theorem claim_C4_parser_error_handling :
    (∀ s : List Char, parseTree s ≠ ParseResult.outOfFuel)
    ∧ (∀ (s : List Char) (nodes : List NodeRec) (fin : ℕ),
        parseTree s = ParseResult.ok nodes fin → s.get? fin = some ';')
    ∧ parseTree "((A,B);".data
        = ParseResult.syntaxError (mkSynErr "((A,B);".data 6 expectedSepMsg)
    ∧ parseTree "(A,B))(C,D);".data
        = ParseResult.syntaxError (mkSynErr "(A,B))(C,D);".data 5 semicolonMsg)
    ∧ parseTree "(Blah,Foo:a$3);".data
        = ParseResult.syntaxError (mkSynErr "(Blah,Foo:a$3);".data 10 (badEdgeMsg "a$3".data))
    ∧ parseTree "(A)B".data
        = ParseResult.syntaxError (mkSynErr "(A)B".data 3 semicolonMsg)
    ∧ parseTree "(A)".data = ParseResult.indexError :=
  ⟨parseTree_not_outOfFuel,
   fun s nodes fin h =>
     (parseLoop_ok_inv s (2 * s.length + 3) 0 [] false [] nodes fin h
       ⟨by simp, by simp, fun p hp _ => absurd hp (by omega)⟩
       (fun h2 => by cases h2)).2,
   by decide, by decide, by decide, by decide, by decide⟩

/-- Witness for C4: the normal-termination conjunct applied to the
concrete tree `(A)B;`, whose parse ends at index 4 holding `;`. -/
theorem claim_C4_parser_error_handling_witness :
    ("(A)B;".data).get? 4 = some ';' :=
  claim_C4_parser_error_handling.2.1 "(A)B;".data
    [⟨some ['A'], none, 0, 1, 2, 1, 1, true⟩,
     ⟨some ['B'], none, 0, 0, 4, 3, 0, false⟩] 4 (by decide)

/-- Claim C5 as frozen is false: the byte spans `[start, end)` of the
records yielded for `(A)B;` are `[1,2)` for the leaf `A` and `[0,4)` for
the root `B`, which are not disjoint — a parent's span contains its
children's spans. -/
theorem claim_C5_counterexample :
    parseTree "(A)B;".data
      = ParseResult.ok
          [⟨some ['A'], none, 0, 1, 2, 1, 1, true⟩,
           ⟨some ['B'], none, 0, 0, 4, 3, 0, false⟩] 4
    ∧ ¬ ((⟨some ['A'], none, 0, 1, 2, 1, 1, true⟩ : NodeRec).stop
          ≤ (⟨some ['B'], none, 0, 0, 4, 3, 0, false⟩ : NodeRec).start
        ∨ (⟨some ['B'], none, 0, 0, 4, 3, 0, false⟩ : NodeRec).stop
          ≤ (⟨some ['A'], none, 0, 1, 2, 1, 1, true⟩ : NodeRec).start) := by
  constructor
  · decide
  · decide

/-- Claim C5 (corrected): the `[start, end)` spans of the yielded records
nest rather than being disjoint (see the counterexample), but the
name-trailer segments `[full_name_start_index, end)` are pairwise disjoint
and appear in scan order, every input position before the terminating `;`
that lies outside all of them holds a separator character `(`, `,` or `)`,
and the final scan position holds the `;` — so concatenating separators
and yielded segments reconstructs the input up to the terminating
semicolon exactly. -/
theorem claim_C5_span_coverage :
    ∀ (s : List Char) (nodes : List NodeRec) (fin : ℕ),
      parseTree s = ParseResult.ok nodes fin →
      (∀ n ∈ nodes, n.fullNameStart ≤ n.stop ∧ n.stop ≤ fin) ∧
      List.Pairwise (fun a b => a.stop ≤ b.fullNameStart) nodes ∧
      (∀ p, p < fin → ¬ InSomeSeg nodes p →
        ∃ c, s.get? p = some c ∧ isSepChar c = true) ∧
      s.get? fin = some ';' := by
  intro s nodes fin h
  have hmain := parseLoop_ok_inv s (2 * s.length + 3) 0 [] false [] nodes fin h
    ⟨by simp, by simp, fun p hp _ => absurd hp (by omega)⟩ (fun h2 => by cases h2)
  exact ⟨hmain.1.1, hmain.1.2.1, hmain.1.2.2, hmain.2⟩

/-- Witness for C5: the corrected span statement applied to the concrete
tree `(A)B;`. -/
theorem claim_C5_span_coverage_witness :
    (∀ n ∈ [(⟨some ['A'], none, 0, 1, 2, 1, 1, true⟩ : NodeRec),
            ⟨some ['B'], none, 0, 0, 4, 3, 0, false⟩],
      n.fullNameStart ≤ n.stop ∧ n.stop ≤ 4) ∧
    List.Pairwise (fun a b => a.stop ≤ b.fullNameStart)
      [(⟨some ['A'], none, 0, 1, 2, 1, 1, true⟩ : NodeRec),
       ⟨some ['B'], none, 0, 0, 4, 3, 0, false⟩] ∧
    (∀ p, p < 4 → ¬ InSomeSeg
        [(⟨some ['A'], none, 0, 1, 2, 1, 1, true⟩ : NodeRec),
         ⟨some ['B'], none, 0, 0, 4, 3, 0, false⟩] p →
      ∃ c, ("(A)B;".data).get? p = some c ∧ isSepChar c = true) ∧
    ("(A)B;".data).get? 4 = some ';' :=
  claim_C5_span_coverage "(A)B;".data
    [⟨some ['A'], none, 0, 1, 2, 1, 1, true⟩,
     ⟨some ['B'], none, 0, 0, 4, 3, 0, false⟩] 4 (by decide)

/-! ### Subtree-extractor lemmas -/

theorem pySlice_empty (s : List Char) {a b : ℕ} (h : b ≤ a) : pySlice s a b = [] := by
  unfold pySlice
  apply List.drop_eq_nil_of_le
  calc (s.take b).length ≤ b := by simp
    _ ≤ a := h

theorem strToAppend_empty (s acc : List Char) {a b : ℕ} (h : b ≤ a) :
    strToAppend s acc a b = [] := by
  unfold strToAppend
  split
  · exact pySlice_empty s (by omega)
  · exact pySlice_empty s h

theorem excludedRangeFor_spec (s : List Char) (start stop : ℕ) (h : 0 < start) :
    excludedRangeFor s start stop =
      (if s.get? (start - 1) = some ',' then (start - 1, stop)
       else if s.get? stop = some ',' then (start, stop + 1)
       else (start, stop)) := by
  unfold excludedRangeFor pyCharAt
  have h1 : ¬((start : ℤ) - 1 < 0) := by omega
  have h2 : ((start : ℤ) - 1).toNat = start - 1 := by omega
  have h3 : ¬((stop : ℤ) < 0) := by omega
  have h4 : ((stop : ℤ)).toNat = stop := by omega
  rw [if_neg h1, h2, if_neg h3, h4]

theorem copySpanAux_eq_claimCopy (s : List Char) (a b : ℕ) :
    ∀ (ranges : List (ℕ × ℕ)) (acc : List Char) (cursor : ℕ),
      (∀ r ∈ ranges, r.1 ≤ r.2) →
      copySpanAux s a b ranges acc cursor = claimCopy s a b ranges cursor acc := by
  intro ranges
  induction ranges with
  | nil => intro acc cursor _; rfl
  | cons r rest ih =>
    intro acc cursor h
    have hr : r.1 ≤ r.2 := h r (by simp)
    have hrest : ∀ q ∈ rest, q.1 ≤ q.2 := fun q hq => h q (by simp [hq])
    simp only [copySpanAux, claimCopy]
    by_cases h1 : a < r.1 ∧ r.1 < b
    · by_cases h2 : cursor < r.2
      · rw [if_pos ⟨h1.1, h1.2, h2⟩, if_pos h1]
        have hgap : strToAppend s acc cursor r.1
            = strToAppend s acc cursor (max cursor r.1) := by
          rcases le_or_lt cursor r.1 with hc | hc
          · rw [Nat.max_eq_right hc]
          · rw [Nat.max_eq_left (le_of_lt hc),
              strToAppend_empty s acc (le_of_lt hc), strToAppend_empty s acc (le_refl _)]
        rw [hgap, Nat.max_eq_right (by omega : cursor ≤ r.2)]
        exact ih _ _ hrest
      · rw [if_neg (fun hc => h2 hc.2.2), if_pos h1]
        rw [Nat.max_eq_left (by omega : r.2 ≤ cursor),
          Nat.max_eq_left (by omega : r.1 ≤ cursor),
          strToAppend_empty s acc (le_refl cursor), List.append_nil]
        exact ih _ _ hrest
    · rw [if_neg (fun hc => h1 ⟨hc.1, hc.2.1⟩), if_neg h1]
      exact ih _ _ hrest

/-- Claim C6: for every excluded node, the recorded exclusion range is the
node's own span extended to swallow one adjacent comma — the preceding
comma when present, else the following one, else nothing; when emitting an
included node, the copy loop is exactly "copy the span while skipping
every exclusion range strictly inside it" (each skip clipped so the copy
cursor never moves backwards); and in particular
`extract_trees('((A,B)C,D)E;', {'E'}, excluded_taxa={'B','C'})` returns
the single entry `E ↦ (D)E`. -/
theorem claim_C6_exclusion_extraction :
    (∀ (s : List Char) (start stop : ℕ), 0 < start →
      excludedRangeFor s start stop =
        (if s.get? (start - 1) = some ',' then (start - 1, stop)
         else if s.get? stop = some ',' then (start, stop + 1)
         else (start, stop))) ∧
    (∀ (s : List Char) (a b : ℕ) (ranges : List (ℕ × ℕ)),
      (∀ r ∈ ranges, r.1 ≤ r.2) →
      copySpan s a b ranges = claimCopy s a b ranges a []) ∧
    extractTrees "((A,B)C,D)E;".data ["E".data] ["B".data, "C".data] 0
      = some [("E".data, "(D)E".data)] :=
  ⟨excludedRangeFor_spec,
   fun s a b ranges h => copySpanAux_eq_claimCopy s a b ranges [] a h,
   by decide⟩

/-- Witness for C6: the skip-loop conjunct applied at the concrete span
and exclusion ranges arising in the `((A,B)C,D)E;` example. -/
theorem claim_C6_exclusion_extraction_witness :
    copySpan "((A,B)C,D)E;".data 0 11 [(1, 8), (3, 5)]
      = claimCopy "((A,B)C,D)E;".data 0 11 [(1, 8), (3, 5)] 0 [] :=
  claim_C6_exclusion_extraction.2.1 "((A,B)C,D)E;".data 0 11 [(1, 8), (3, 5)]
    (by decide)

/-! ### Assembler lemmas (claims C2 and C3) -/

theorem pySlice_prefix_mono (s : List Char) (a : ℕ) {b c : ℕ} (h : b ≤ c) :
    pySlice s a b <+: pySlice s a c := by
  unfold pySlice
  have htake : s.take b = (s.take c).take b := by
    rw [List.take_take, Nat.min_eq_left h]
  rw [htake]
  exact (List.take_prefix b (s.take c)).drop a

theorem findIdxA_none_all {p : Char → Bool} {l : List Char}
    (h : findIdxA p l = none) : ∀ i c, l.get? i = some c → p c = false := by
  induction l with
  | nil => intro i c hc; cases hc
  | cons a rest ih =>
    simp only [findIdxA] at h
    split at h
    · cases h
    · intro i c hc
      match i, hc with
      | 0, hc =>
        cases hc
        rename_i hpa
        simpa using hpa
      | (j + 1), hc =>
        have hrest : findIdxA p rest = none := by
          match hm : findIdxA p rest with
          | none => rfl
          | some k => rw [hm] at h; simp at h
        exact ih hrest j c hc

theorem findIdxA_some_first {p : Char → Bool} {l : List Char} {j : ℕ}
    (h : findIdxA p l = some j) : ∀ i, i < j → ∀ c, l.get? i = some c → p c = false := by
  induction l generalizing j with
  | nil => cases h
  | cons a rest ih =>
    simp only [findIdxA] at h
    split at h
    · cases h
      intro i hi
      omega
    · match hm : findIdxA p rest with
      | none => rw [hm] at h; cases h
      | some k =>
        rw [hm] at h
        simp only [Option.map_some'] at h
        cases h
        intro i hi c hc
        match i, hc with
        | 0, hc =>
          cases hc
          rename_i hpa
          simpa using hpa
        | (m + 1), hc => exact ih hm m (by omega) c hc

theorem rfindIdx_ge {p : Char → Bool} {l : List Char} {k : ℕ} {c0 : Char}
    (hk : l.get? k = some c0) (hp : p c0 = true) :
    ∃ m, rfindIdx p l = some m ∧ k ≤ m ∧ m < l.length := by
  have hkL : k < l.length := get?_some_lt hk
  have hrev : l.reverse.get? (l.length - 1 - k) = some c0 := by
    rw [List.get?_reverse (by omega)]
    have : l.length - 1 - (l.length - 1 - k) = k := by omega
    rw [this]
    exact hk
  match hm : findIdxA p l.reverse with
  | none =>
    exact absurd hp (by simpa using findIdxA_none_all hm _ _ hrev)
  | some j =>
    refine ⟨l.length - 1 - j, by simp [rfindIdx, hm], ?_, by omega⟩
    by_contra hlt
    have hjk : l.length - 1 - k < j := by omega
    have := findIdxA_some_first hm _ hjk _ hrev
    rw [hp] at this
    cases this

theorem take_prefix_mono (l : List Char) {a b : ℕ} (h : a ≤ b) :
    l.take a <+: l.take b := by
  have : l.take a = (l.take b).take a := by
    rw [List.take_take, Nat.min_eq_left h]
  rw [this]
  exact List.take_prefix a (l.take b)

/-- A final chunk with a closing parenthesis at or past `stop` keeps its
first `stop` characters inside the trailer's copied prefix. -/
theorem trailer_keeps_prefix (chunk : List Char) (nip : Option (List Char))
    (me : Option MapEntry) (stop k : ℕ)
    (hstop : stop ≤ k) (hk : chunk.get? k = some ')') :
    chunk.take stop <+: (assembleTrailer chunk nip me).prefixOut := by
  obtain ⟨m, hm, hkm, _⟩ := rfindIdx_ge (p := fun c => c = ')') hk (by decide)
  simp only [assembleTrailer, hm]
  exact take_prefix_mono chunk (by omega)

theorem renderTrailer_some {t : Trailer} {r : List Char}
    (h : renderTrailer t = some r) :
    ∃ nm, t.nodeName = some nm ∧
      r = t.prefixOut ++ nm ++
        (if edgeTruthy t.edge then ':' :: edgeRender (t.edge.getD (Sum.inr [])) else []) := by
  unfold renderTrailer at h
  split at h
  · cases h
  · rename_i nm hnm
    cases h
    exact ⟨nm, hnm, rfl⟩

theorem allMissingOut_contains (tree : List Char) (nip : Option (List Char))
    (me : Option MapEntry) :
    ∀ (tokens : List OZRecord) (index : ℕ) (tail : List Char),
      allMissingOut tree nip me tokens index = some tail →
      List.Chain' (fun a b => a.stop ≤ b.start) tokens →
      (∀ tok ∈ tokens, tok.start ≤ tok.stop) →
      (∀ tok ∈ tokens, ∃ k, tok.stop ≤ k ∧ tree.get? k = some ')') →
      ∀ tok ∈ tokens, pySlice tree tok.start tok.stop <:+: tail := by
  intro tokens
  induction tokens with
  | nil => intro index tail _ _ _ _ tok htok; cases htok
  | cons tok rest ih =>
    intro index tail hTail hChain hWf hClose t ht
    simp only [allMissingOut] at hTail
    obtain ⟨tail2, hTail2, rfl⟩ := Option.map_eq_some'.1 hTail
    rcases List.mem_cons.1 ht with rfl | hmem
    · -- the token whose own text flows into the next chunk
      have hinner : pySlice tree t.start t.stop <:+: tail2 := by
        cases rest with
        | nil =>
          simp only [allMissingOut] at hTail2
          obtain ⟨nm, _, rfl⟩ := renderTrailer_some hTail2
          obtain ⟨k, hk1, hk2⟩ := hClose t (by simp)
          have hts : t.start ≤ t.stop := hWf t (by simp)
          have hchunk : (tree.drop t.start).get? (k - t.start) = some ')' := by
            rw [List.get?_drop]
            have : t.start + (k - t.start) = k := by omega
            rw [this]
            exact hk2
          have hpre := trailer_keeps_prefix (tree.drop t.start) nip me
            (t.stop - t.start) (k - t.start) (by omega) hchunk
          have hslice : pySlice tree t.start t.stop = (tree.drop t.start).take (t.stop - t.start) := by
            unfold pySlice
            exact List.drop_take t.stop t.start tree
          rw [hslice]
          exact ((hpre.trans (List.prefix_append _ _)).trans
            (List.prefix_append _ _)).isInfix
        | cons tok2 rest2 =>
          simp only [allMissingOut] at hTail2
          obtain ⟨tail3, _, rfl⟩ := Option.map_eq_some'.1 hTail2
          have hle : t.stop ≤ tok2.start := (List.chain'_cons.1 hChain).1
          have hpre := pySlice_prefix_mono tree t.start hle
          exact (hpre.trans (List.prefix_append _ _)).isInfix
      exact hinner.trans (List.suffix_append _ _).isInfix
    · have := ih tok.start tail2 hTail2 (List.Chain'.tail hChain)
        (fun q hq => hWf q (by simp [hq])) (fun q hq => hClose q (by simp [hq])) t hmem
      exact this.trans (List.suffix_append _ _).isInfix

theorem processTokens_all_missing (cfg : BuildCfg) (fuel : ℕ) (tree : List Char)
    (nip : Option (List Char)) (me : Option MapEntry) :
    ∀ (tokens : List OZRecord) (index : ℕ) (out : List Char)
      (warns : List (List Char)) (tail : List Char),
      (∀ tok ∈ tokens, ∃ sf cm ex, resolveChild cfg tok = some (sf, cm, ex) ∧
        fsLookup cfg.fs sf = none) →
      allMissingOut tree nip me tokens index = some tail →
      processTokens (processNewick cfg (fuel + 1)) cfg tree nip me tokens index out warns
        = BuildResult.ok (out ++ tail)
            (warns ++ tokens.map fun tok => missingFileMsg (resolvedFile cfg tok)) true := by
  intro tokens
  induction tokens with
  | nil =>
    intro index out warns tail _ hTail
    simp only [allMissingOut] at hTail
    simp only [processTokens, hTail, List.map_nil, List.append_nil]
  | cons tok rest ih =>
    intro index out warns tail hres hTail
    simp only [allMissingOut] at hTail
    obtain ⟨tail2, hTail2, rfl⟩ := Option.map_eq_some'.1 hTail
    obtain ⟨sf, cm, ex, heq, hmiss⟩ := hres tok (by simp)
    have hchild : processNewick cfg (fuel + 1) sf (some tok.nodeNameInParent)
        tok.rawEdge cm ex = BuildResult.ok [] [missingFileMsg sf] false := by
      simp only [processNewick, hmiss]
    simp only [processTokens, heq, hchild]
    have hrest := ih tok.start (out ++ pySlice tree index tok.start ++ [])
      (warns ++ [missingFileMsg sf]) tail2
      (fun q hq => hres q (by simp [hq])) hTail2
    simp only [if_neg (by simp : ¬(false = true))] at hrest ⊢
    rw [hrest]
    have hsf : resolvedFile cfg tok = sf := by
      unfold resolvedFile
      rw [heq]
    simp [hsf, List.append_assoc]

/-- Claim C2: the assembled trailer's edge length is the mapping-table
edge length when that is set (truthy — symbolic inclusions only), else
the file's own trailing edge length, and never the parent token's edge
length (the whole run is invariant in `edge_length_in_parent`); the node
name falls back mapping-taxon → file-trailing-name → parent-token-name
for symbolic inclusions, and parent-token-name → file-trailing-name for
reference-taxonomy inclusions.  In particular a mapping entry with edge
length 50 and no taxon, applied to a fragment whose trailer is
`Amorphea:12;`, assembles the trailer with edge length `50` and name
`Amorphea`. -/
theorem claim_C2_trailer_fallback :
    (∀ (lastChunk : List Char) (nip : Option (List Char)) (me : MapEntry),
      (assembleTrailer lastChunk nip (some me)).edge =
        match me.edgeLength with
        | some q =>
          if q = 0 then ((lastTokenOf lastChunk).2).map Sum.inr else some (Sum.inl q)
        | none => ((lastTokenOf lastChunk).2).map Sum.inr) ∧
    (∀ (lastChunk : List Char) (nip : Option (List Char)),
      (assembleTrailer lastChunk nip none).edge =
        ((lastTokenOf lastChunk).2).map Sum.inr) ∧
    (∀ (cfg : BuildCfg) (fuel : ℕ) (file : List Char) (nip e1 e2 : Option (List Char))
       (me : Option MapEntry) (ex : Bool),
      processNewick cfg fuel file nip e1 me ex = processNewick cfg fuel file nip e2 me ex) ∧
    (∀ (lastChunk : List Char) (nip : Option (List Char)) (me : MapEntry),
      (assembleTrailer lastChunk nip (some me)).nodeName =
        pyOrStr me.taxon (pyOrStr (some (lastTokenOf lastChunk).1) nip)) ∧
    (∀ (lastChunk : List Char) (nip : Option (List Char)),
      (assembleTrailer lastChunk nip none).nodeName =
        pyOrStr nip (some (lastTokenOf lastChunk).1)) ∧
    buildOzTree
        [("oz/Amorphea.PHY".data, "(A,B)Amorphea:12;".data),
         ("oz/base.PHY".data, "(AMORPHEA@:5)Top;".data)]
        [("AMORPHEA".data, ⟨"Amorphea.PHY".data, some 50, none⟩)]
        "oz/base.PHY".data "ot".data 10
      = BuildResult.ok "((A,B)Amorphea:50)Top".data [] true :=
  ⟨fun _ _ _ => rfl, fun _ _ => rfl,
   fun cfg fuel file nip e1 e2 me ex => by cases fuel <;> rfl,
   fun _ _ _ => rfl, fun _ _ => rfl, by decide⟩

/-- Claim C3: when every token of a fragment resolves to a missing file,
the token loop finishes with `found = True` (no exception), logs exactly
one warning per missing token, and the raw text of every token survives
unchanged in the emitted output; a concrete two-token build shows the
sibling branches being assembled past both failures. -/
theorem claim_C3_missing_file_resilience :
    (∀ (cfg : BuildCfg) (fuel : ℕ) (tree : List Char) (nip : Option (List Char))
       (me : Option MapEntry) (tokens : List OZRecord) (index : ℕ) (out : List Char)
       (warns : List (List Char)) (tail : List Char),
      (∀ tok ∈ tokens, ∃ sf cm ex, resolveChild cfg tok = some (sf, cm, ex) ∧
        fsLookup cfg.fs sf = none) →
      allMissingOut tree nip me tokens index = some tail →
      processTokens (processNewick cfg (fuel + 1)) cfg tree nip me tokens index out warns
        = BuildResult.ok (out ++ tail)
            (warns ++ tokens.map fun tok => missingFileMsg (resolvedFile cfg tok)) true) ∧
    (∀ (tree : List Char) (nip : Option (List Char)) (me : Option MapEntry)
       (tokens : List OZRecord) (index : ℕ) (tail : List Char),
      allMissingOut tree nip me tokens index = some tail →
      List.Chain' (fun a b => a.stop ≤ b.start) tokens →
      (∀ tok ∈ tokens, tok.start ≤ tok.stop) →
      (∀ tok ∈ tokens, ∃ k, tok.stop ≤ k ∧ tree.get? k = some ')') →
      ∀ tok ∈ tokens, pySlice tree tok.start tok.stop <:+: tail) ∧
    buildOzTree
        [("oz/base.PHY".data, "(X_ott77~@:5,AMORPHEA@)Top;".data)]
        [("AMORPHEA".data, ⟨"Amorphea.PHY".data, some 50, none⟩)]
        "oz/base.PHY".data "ot".data 10
      = BuildResult.ok "(X_ott77~@:5,AMORPHEA@)Top".data
          [missingFileMsg "ot/77.nwk".data, missingFileMsg "oz/Amorphea.PHY".data]
          true :=
  ⟨fun cfg fuel tree nip me => processTokens_all_missing cfg fuel tree nip me,
   allMissingOut_contains,
   by decide⟩

/-- Witness for C3: the raw-text-preservation conjunct applied to the
single missing token of `(Y_ott9~@)R`, whose text survives in the
emitted output. -/
theorem claim_C3_missing_file_resilience_witness :
    pySlice "(Y_ott9~@)R".data 1 9 <:+: "(Y_ott9~@)R".data :=
  claim_C3_missing_file_resilience.2.1 "(Y_ott9~@)R".data none none
    [⟨1, 9, "Y_ott9".data, none, some "9".data, []⟩] 0 "(Y_ott9~@)R".data
    (by decide) (List.chain'_singleton _) (by decide)
    (fun tok htok => ⟨9, by
      cases htok with
      | head => exact ⟨le_refl _, by decide⟩
      | tail _ h => cases h⟩)
    ⟨1, 9, "Y_ott9".data, none, some "9".data, []⟩ (by decide)

/-- Witness for C1: the universally quantified conjunct applied at the
label `foobar_ott123~-789-111`. -/
theorem claim_C1_token_decoding_witness :
    decodeLabel ("foobar".data ++ ('_' :: 'o' :: 't' :: 't' :: "123".data) ++
        '~' :: (([] : List Char) ++
          (([ "789".data, "111".data ].map fun e => '-' :: e).flatten)))
      = ⟨(if ([] : List Char) = [] then
            "foobar".data ++ ('_' :: 'o' :: 't' :: 't' :: "123".data)
          else "foobar".data),
         some (if ([] : List Char) = [] then "123".data else ([] : List Char)),
         ["789".data, "111".data]⟩ :=
  claim_C1_token_decoding.1 "foobar".data "123".data [] ["789".data, "111".data]
    (by decide) (by decide) (by decide) (by decide) (by decide)

/-! ### Rational-arithmetic bridges and rounding lemmas -/

/-- A rational's numerator equals the rational times its denominator. -/
theorem num_mul_den (a : ℚ) : (a.num : ℚ) = a * a.den :=
  (div_eq_iff (by positivity)).1 (Rat.num_div_den a)

/-- `qAdd` is rational addition. -/
theorem qAdd_eq (a b : ℚ) : qAdd a b = a + b := by
  rw [qAdd, Rat.mkRat_eq_div]
  push_cast
  rw [div_eq_iff (by positivity), num_mul_den a, num_mul_den b]
  ring

/-- `qSub` is rational subtraction. -/
theorem qSub_eq (a b : ℚ) : qSub a b = a - b := by
  rw [qSub, Rat.mkRat_eq_div]
  push_cast
  rw [div_eq_iff (by positivity), num_mul_den a, num_mul_den b]
  ring

/-- `qAbs` is the rational absolute value. -/
theorem qAbs_eq (a : ℚ) : qAbs a = |a| := by
  rw [qAbs, Rat.mkRat_eq_div]
  conv_rhs => rw [← Rat.num_div_den a]
  rw [abs_div, abs_of_pos (show (0 : ℚ) < a.den by positivity)]
  norm_num [Int.cast_natAbs]

/-- `qScale q nd` is `q * 10 ^ nd`. -/
theorem qScale_eq (q : ℚ) (nd : ℕ) : qScale q nd = q * 10 ^ nd := by
  rw [qScale, Rat.mkRat_eq_div]
  push_cast
  rw [div_eq_iff (by positivity), num_mul_den q]
  ring

/-- `qSum` is `List.sum`. -/
theorem qSum_eq (l : List ℚ) : qSum l = l.sum := by
  induction l with
  | nil => rfl
  | cons x xs ih => rw [qSum, List.foldr_cons, ← qSum, ih, qAdd_eq, List.sum_cons]

/-- `pyRound` in terms of ordinary rational arithmetic. -/
theorem pyRound_eq (q : ℚ) (nd : ℕ) :
    pyRound q nd = (bankersRound (q * 10 ^ nd) : ℚ) / 10 ^ nd := by
  rw [pyRound, qScale_eq, Rat.mkRat_eq_div]
  push_cast
  rfl

/-- Round-half-to-even leaves integers unchanged. -/
theorem bankersRound_intCast (z : ℤ) : bankersRound (z : ℚ) = z := by
  simp [bankersRound, Rat.num_intCast, Rat.den_intCast, Int.fdiv_one]

/-- Python rounding is idempotent at a fixed number of digits. -/
theorem pyRound_idem (q : ℚ) (nd : ℕ) : pyRound (pyRound q nd) nd = pyRound q nd := by
  rw [pyRound_eq (pyRound q nd), pyRound_eq q, div_mul_cancel₀ _ (by positivity),
    bankersRound_intCast]

/-- C9: `check_ultrametricity` tests for an existing baseline with the
truthiness test `if not known_total_length`, so a recorded total of `0`
counts as no baseline: a first-seen leaf with total `0` never becomes an
effective baseline and every subsequent leaf re-establishes the baseline
until a nonzero total appears; consequently for `(A:0,B:5)C;` no
comparison is ever made and the check reports the tree ultrametric even
though the leaf totals `0` and `5` differ. -/
theorem claim_C9_baseline_truthiness :
    checkUltrametricity 10 ultraCheckExample = some true
  ∧ (∀ (st : CheckSt) (name : List Char) (total : ℚ),
      st.known = none ∨ st.known = some 0 →
      leafUpdate st name total = { st with known := some total, initialName := name })
  ∧ (∀ (st : CheckSt) (name : List Char) (total : ℚ),
      st.known = some 0 → (leafUpdate st name total).msg = st.msg) := by
  refine ⟨rfl, ?_, ?_⟩
  · intro st name total h
    rw [leafUpdate, if_pos h]
  · intro st name total h
    rw [leafUpdate, if_pos (Or.inr h)]

/-- Witness for C9: the re-establishment conjunct applied to a state
whose recorded total is `0`: the next leaf simply overwrites the
baseline, and no message is produced. -/
theorem claim_C9_baseline_truthiness_witness :
    leafUpdate ⟨some 0, [], none⟩ "B".data 5 =
      { known := some 5, initialName := "B".data, msg := none } :=
  claim_C9_baseline_truthiness.2.1 ⟨some 0, [], none⟩ "B".data 5 (Or.inr rfl)

/-- C10: the fixer mutates more than the leaves: whenever a visit of a
child list completes without raising, each processed child – internal
nodes included – comes out with its non-`None` edge length rounded to 6
decimal places (first conjunct, which covers every parent-to-children
step the traversal makes on non-leaf children); concretely, on a chain
whose rounded path sum already equals the expected length `1`, the run
succeeds with no leaf adjustment yet the internal edge `0.10000005` comes
out changed to `0.1`. -/
theorem claim_C10_internal_rounding :
    (∀ (fuel : ℕ) (taxon label : Option (List Char)) (edge : Option ℚ)
        (children sib : List NTree) (pl : Option (List Char)) (lsf expected maxAdj : ℚ)
        (t2 : NTree) (ts : List NTree),
      children ≠ [] →
      fixGo (fuel + 1) (NTree.node taxon label edge children :: sib) pl lsf expected maxAdj
        = some (Except.ok (t2 :: ts)) →
      t2.edgeLength = edge.map (fun q => pyRound q 6))
  ∧ fixUltrametricity 10 fixExampleIn 1 (mkRat 1 1000000) = some (Except.ok fixExampleOut)
  ∧ fixExampleIn.children.map NTree.edgeLength ≠ fixExampleOut.children.map NTree.edgeLength := by
  refine ⟨?_, rfl, by decide⟩
  intro fuel taxon label edge children sib pl lsf expected maxAdj t2 ts hne hfix
  have hce : children.isEmpty = false := by
    cases children with
    | nil => exact absurd rfl hne
    | cons c cs => rfl
  simp only [fixGo, hce, Bool.false_eq_true, if_false] at hfix
  by_cases hat : (getTaxonName taxon pl false (!false)).getLast? = some '@'
  · rw [if_pos hat] at hfix
    dsimp only at hfix
    cases hs : fixGo fuel sib pl lsf expected maxAdj with
    | none => rw [hs] at hfix; exact absurd hfix (by simp)
    | some r =>
      rw [hs] at hfix
      cases r with
      | error e => simp at hfix
      | ok ts2 =>
        simp only [Option.some.injEq, Except.ok.injEq, List.cons.injEq] at hfix
        rw [← hfix.1]
        rfl
  · rw [if_neg hat] at hfix
    cases hc : fixGo fuel children label (qAdd lsf ((edge.map fun q => pyRound q 6).getD 0))
        expected maxAdj with
    | none => rw [hc] at hfix; simp at hfix
    | some rc =>
      rw [hc] at hfix
      cases rc with
      | error e => simp at hfix
      | ok cs2 =>
        dsimp only at hfix
        cases hs : fixGo fuel sib pl lsf expected maxAdj with
        | none => rw [hs] at hfix; simp at hfix
        | some r =>
          rw [hs] at hfix
          cases r with
          | error e => simp at hfix
          | ok ts2 =>
            simp only [Option.some.injEq, Except.ok.injEq, List.cons.injEq] at hfix
            rw [← hfix.1]
            rfl

/-- Witness for C10: the universally quantified conjunct applied to the
internal node of `fixExampleIn`, whose edge `0.10000005` comes out as
`round(0.10000005, 6) = 0.1`. -/
theorem claim_C10_internal_rounding_witness :
    (NTree.node none (some "I".data) (some (mkRat 1 10))
        [NTree.node (some "L".data) none (some (mkRat 9 10)) []]).edgeLength
      = (some (mkRat 10000005 100000000)).map (fun q => pyRound q 6) :=
  claim_C10_internal_rounding.1 9 none (some "I".data) (some (mkRat 10000005 100000000))
    [NTree.node (some "L".data) none (some (mkRat 89999995 100000000)) []]
    [] (some "R".data) 0 1 (mkRat 1 1000000)
    (NTree.node none (some "I".data) (some (mkRat 1 10))
      [NTree.node (some "L".data) none (some (mkRat 9 10)) []])
    [] (List.cons_ne_nil _ _) rfl

/-- Whether the fixer's recursive descent raises is decided exactly by
the qualifying-leaf test `anyBadLeaf`, whenever both traversals complete
on the given fuel. -/
theorem fixGo_err_iff :
    ∀ (fuel : ℕ) (l : List NTree) (pl : Option (List Char)) (lsf expected maxAdj : ℚ)
      (r : Except Unit (List NTree)) (b : Bool),
      fixGo fuel l pl lsf expected maxAdj = some r →
      anyBadLeaf fuel l pl lsf expected maxAdj = some b →
      ((r = Except.error ()) ↔ b = true) := by
  intro fuel
  induction fuel with
  | zero => intro l pl lsf expd mx r b hf ha; simp [fixGo] at hf
  | succ n ih =>
    intro l pl lsf expd mx r b hf ha
    match l with
    | [] =>
      simp only [fixGo, Option.some.injEq] at hf
      simp only [anyBadLeaf, Option.some.injEq] at ha
      subst hf
      subst ha
      simp
    | NTree.node taxon label edge children :: sib =>
      simp only [fixGo] at hf
      simp only [anyBadLeaf] at ha
      by_cases hat : (getTaxonName taxon pl false (!children.isEmpty)).getLast? = some '@'
      · rw [if_pos hat] at hf ha
        dsimp only at hf ha
        cases hs : fixGo n sib pl lsf expd mx with
        | none => rw [hs] at hf; simp at hf
        | some r2 =>
          rw [hs] at hf
          cases hbs : anyBadLeaf n sib pl lsf expd mx with
          | none => rw [hbs] at ha; simp at ha
          | some b2 =>
            rw [hbs] at ha
            have hiff := ih sib pl lsf expd mx r2 b2 hs hbs
            cases r2 with
            | error e =>
              simp only [Option.some.injEq] at hf ha
              subst hf; subst ha
              cases e
              simp only [Bool.false_or]
              simpa using hiff
            | ok ts2 =>
              simp only [Option.some.injEq] at hf ha
              subst hf; subst ha
              simp only [Bool.false_or]
              constructor
              · intro h; cases h
              · intro h
                exact absurd (hiff.2 h) (by simp)
      · rw [if_neg hat] at hf ha
        by_cases hle : children.isEmpty = true
        · rw [if_pos hle] at hf ha
          cases edge with
          | none =>
            dsimp only [Option.map, Option.getD] at hf ha
            cases hs : fixGo n sib pl lsf expd mx with
            | none => rw [hs] at hf; simp at hf
            | some r2 =>
              rw [hs] at hf
              cases hbs : anyBadLeaf n sib pl lsf expd mx with
              | none => rw [hbs] at ha; simp at ha
              | some b2 =>
                rw [hbs] at ha
                have hiff := ih sib pl lsf expd mx r2 b2 hs hbs
                cases r2 with
                | error e =>
                  simp only [Option.some.injEq] at hf ha
                  subst hf; subst ha
                  cases e
                  simp only [Bool.false_or]
                  simpa using hiff
                | ok ts2 =>
                  simp only [Option.some.injEq] at hf ha
                  subst hf; subst ha
                  simp only [Bool.false_or]
                  constructor
                  · intro h; cases h
                  · intro h
                    exact absurd (hiff.2 h) (by simp)
          | some e0 =>
            dsimp only [Option.map, Option.getD] at hf ha
            by_cases hne : qAdd lsf (pyRound e0 6) ≠ expd
            · rw [if_pos hne] at hf
              by_cases hgt : mx < qAbs (qSub (qAdd lsf (pyRound e0 6)) expd)
              · rw [if_pos hgt] at hf
                have hB0 : decide (qAdd lsf (pyRound e0 6) ≠ expd ∧
                    mx < qAbs (qSub (qAdd lsf (pyRound e0 6)) expd)) = true :=
                  decide_eq_true ⟨hne, hgt⟩
                rw [hB0] at ha
                dsimp only at hf ha
                cases hbs : anyBadLeaf n sib pl lsf expd mx with
                | none => rw [hbs] at ha; simp at ha
                | some b2 =>
                  rw [hbs] at ha
                  simp only [Option.some.injEq] at hf ha
                  subst hf; subst ha
                  simp
              · rw [if_neg hgt] at hf
                have hB0 : decide (qAdd lsf (pyRound e0 6) ≠ expd ∧
                    mx < qAbs (qSub (qAdd lsf (pyRound e0 6)) expd)) = false :=
                  decide_eq_false fun hand => hgt hand.2
                rw [hB0] at ha
                dsimp only at hf ha
                cases hs : fixGo n sib pl lsf expd mx with
                | none => rw [hs] at hf; simp at hf
                | some r2 =>
                  rw [hs] at hf
                  cases hbs : anyBadLeaf n sib pl lsf expd mx with
                  | none => rw [hbs] at ha; simp at ha
                  | some b2 =>
                    rw [hbs] at ha
                    have hiff := ih sib pl lsf expd mx r2 b2 hs hbs
                    cases r2 with
                    | error e =>
                      simp only [Option.some.injEq] at hf ha
                      subst hf; subst ha
                      cases e
                      simp only [Bool.false_or]
                      simpa using hiff
                    | ok ts2 =>
                      simp only [Option.some.injEq] at hf ha
                      subst hf; subst ha
                      simp only [Bool.false_or]
                      constructor
                      · intro h; cases h
                      · intro h
                        exact absurd (hiff.2 h) (by simp)
            · rw [if_neg hne] at hf
              have hB0 : decide (qAdd lsf (pyRound e0 6) ≠ expd ∧
                  mx < qAbs (qSub (qAdd lsf (pyRound e0 6)) expd)) = false :=
                decide_eq_false fun hand => hne hand.1
              rw [hB0] at ha
              dsimp only at hf ha
              cases hs : fixGo n sib pl lsf expd mx with
              | none => rw [hs] at hf; simp at hf
              | some r2 =>
                rw [hs] at hf
                cases hbs : anyBadLeaf n sib pl lsf expd mx with
                | none => rw [hbs] at ha; simp at ha
                | some b2 =>
                  rw [hbs] at ha
                  have hiff := ih sib pl lsf expd mx r2 b2 hs hbs
                  cases r2 with
                  | error e =>
                    simp only [Option.some.injEq] at hf ha
                    subst hf; subst ha
                    cases e
                    simp only [Bool.false_or]
                    simpa using hiff
                  | ok ts2 =>
                    simp only [Option.some.injEq] at hf ha
                    subst hf; subst ha
                    simp only [Bool.false_or]
                    constructor
                    · intro h; cases h
                    · intro h
                      exact absurd (hiff.2 h) (by simp)
        · rw [if_neg hle] at hf ha
          cases hc : fixGo n children label
              (qAdd lsf ((Option.map (fun q => pyRound q 6) edge).getD 0)) expd mx with
          | none => rw [hc] at hf; simp at hf
          | some rc =>
            rw [hc] at hf
            cases hbc : anyBadLeaf n children label
                (qAdd lsf ((Option.map (fun q => pyRound q 6) edge).getD 0)) expd mx with
            | none => rw [hbc] at ha; simp at ha
            | some bc =>
              rw [hbc] at ha
              have hiffc := ih children label
                (qAdd lsf ((Option.map (fun q => pyRound q 6) edge).getD 0)) expd mx rc bc hc hbc
              cases rc with
              | error e =>
                dsimp only at hf ha
                cases e
                have hbc_true : bc = true := hiffc.1 rfl
                subst hbc_true
                cases hbs : anyBadLeaf n sib pl lsf expd mx with
                | none => rw [hbs] at ha; simp at ha
                | some b2 =>
                  rw [hbs] at ha
                  simp only [Option.some.injEq] at hf ha
                  subst hf; subst ha
                  simp
              | ok cs2 =>
                have hbc_false : bc = false := by
                  cases hbc2 : bc with
                  | false => rfl
                  | true => exact absurd (hiffc.2 hbc2) (by simp)
                subst hbc_false
                dsimp only at hf ha
                cases hs : fixGo n sib pl lsf expd mx with
                | none => rw [hs] at hf; simp at hf
                | some r2 =>
                  rw [hs] at hf
                  cases hbs : anyBadLeaf n sib pl lsf expd mx with
                  | none => rw [hbs] at ha; simp at ha
                  | some b2 =>
                    rw [hbs] at ha
                    have hiff := ih sib pl lsf expd mx r2 b2 hs hbs
                    cases r2 with
                    | error e =>
                      simp only [Option.some.injEq] at hf ha
                      subst hf; subst ha
                      cases e
                      simp only [Bool.false_or]
                      simpa using hiff
                    | ok ts2 =>
                      simp only [Option.some.injEq] at hf ha
                      subst hf; subst ha
                      simp only [Bool.false_or]
                      constructor
                      · intro h; cases h
                      · intro h
                        exact absurd (hiff.2 h) (by simp)

/-- Boolean forest equality is sound. -/
theorem beqForest_sound : ∀ fuel a b, beqForest fuel a b = true → a = b := by
  intro fuel
  induction fuel with
  | zero => intro a b h; simp [beqForest] at h
  | succ n ih =>
    intro a b h
    match a, b with
    | [], [] => rfl
    | [], _ :: _ => simp [beqForest] at h
    | _ :: _, [] => simp [beqForest] at h
    | NTree.node t1 l1 e1 cs1 :: r1, NTree.node t2 l2 e2 cs2 :: r2 =>
      simp only [beqForest, Bool.and_eq_true, decide_eq_true_eq] at h
      obtain ⟨⟨⟨⟨h1, h2⟩, h3⟩, h4⟩, h5⟩ := h
      rw [h1, h2, h3, ih cs1 cs2 h4, ih r1 r2 h5]

/-- C8: the fixer's contract.  First conjunct: whenever a visit
completes without raising, each visited leaf with a known edge length and
a name that does not mark an unexpanded inclusion point (`@`-suffix)
comes out with its own (pre-rounded) edge length changed by the signed
difference between the expected length and the leaf's rounded
root-to-leaf sum, rounded to 6 decimal places (when the sum already
matches, that formula collapses to the rounded edge itself).  Second
conjunct: `fix_ultrametricity` raises its hard aborting error precisely
when some such leaf's absolute difference exceeds `max_adjustment` (the
qualifying-leaf test is `anyBadLeaf`, which walks exactly the nodes the
fixer visits). -/
theorem claim_C8_fixer_contract :
    (∀ (fuel : ℕ) (taxon label : Option (List Char)) (e : ℚ) (sib : List NTree)
        (pl : Option (List Char)) (lsf expected maxAdj : ℚ) (t2 : NTree) (ts : List NTree),
      fixGo (fuel + 1) (NTree.node taxon label (some e) [] :: sib) pl lsf expected maxAdj
        = some (Except.ok (t2 :: ts)) →
      (getTaxonName taxon pl false false).getLast? ≠ some '@' →
      t2 = NTree.node taxon label
        (some (pyRound (pyRound e 6 + expected - (lsf + pyRound e 6)) 6)) [])
  ∧ (∀ (fuel : ℕ) (taxon label : Option (List Char)) (edge : Option ℚ)
        (children : List NTree) (expected maxAdj : ℚ) (r : Except Unit NTree) (b : Bool),
      children ≠ [] →
      (getTaxonName taxon none true (!children.isEmpty)).getLast? ≠ some '@' →
      fixUltrametricity fuel (NTree.node taxon label edge children) expected maxAdj = some r →
      anyBadLeaf fuel children label 0 expected maxAdj = some b →
      ((r = Except.error ()) ↔ b = true)) := by
  constructor
  ·
      intro fuel taxon label e sib pl lsf expd mx t2 ts hfix hat
      simp only [fixGo, List.isEmpty_nil, Bool.not_true, reduceIte, Option.map, Option.getD] at hfix
      rw [if_neg hat] at hfix
      by_cases hne : qAdd lsf (pyRound e 6) ≠ expd
      · rw [if_pos hne] at hfix
        by_cases hgt : mx < qAbs (qSub (qAdd lsf (pyRound e 6)) expd)
        · rw [if_pos hgt] at hfix
          simp at hfix
        · rw [if_neg hgt] at hfix
          cases hs : fixGo fuel sib pl lsf expd mx with
          | none => rw [hs] at hfix; simp at hfix
          | some r2 =>
            rw [hs] at hfix
            cases r2 with
            | error e2 => simp at hfix
            | ok ts2 =>
              simp only [Option.some.injEq, Except.ok.injEq, List.cons.injEq] at hfix
              rw [← hfix.1, qAdd_eq, qSub_eq, qAdd_eq]
      · rw [if_neg hne] at hfix
        cases hs : fixGo fuel sib pl lsf expd mx with
        | none => rw [hs] at hfix; simp at hfix
        | some r2 =>
          rw [hs] at hfix
          cases r2 with
          | error e2 => simp at hfix
          | ok ts2 =>
            simp only [Option.some.injEq, Except.ok.injEq, List.cons.injEq] at hfix
            rw [← hfix.1]
            have hexp : lsf + pyRound e 6 = expd := by
              rw [← qAdd_eq]
              exact not_ne_iff.1 hne
            have harg : pyRound e 6 + expd - (lsf + pyRound e 6) = pyRound e 6 := by
              rw [← hexp]; ring
            rw [harg, pyRound_idem]
  ·
      intro fuel taxon label edge children expd mx r b hne hat hf hb
      have hce : children.isEmpty = false := by
        cases children with
        | nil => exact absurd rfl hne
        | cons c cs => rfl
      rw [hce] at hat
      simp only [fixUltrametricity, hce, Bool.false_eq_true, if_false] at hf
      rw [if_neg hat] at hf
      cases hc : fixGo fuel children label 0 expd mx with
      | none => rw [hc] at hf; simp at hf
      | some rc =>
        rw [hc] at hf
        have hiff := fixGo_err_iff fuel children label 0 expd mx rc b hc hb
        cases rc with
        | error e =>
          cases e
          simp only [Option.some.injEq] at hf
          subst hf
          simpa using hiff
        | ok cs2 =>
          simp only [Option.some.injEq] at hf
          subst hf
          constructor
          · intro h; cases h
          · intro h
            exact absurd (hiff.2 h) (by simp)

/-- Witness for C8: the raising direction applied to the example chain
with expected length `2`: the sole qualifying leaf is off by `1`, beyond
the tolerance `10^-6`, and the run indeed aborts. -/
theorem claim_C8_fixer_contract_witness :
    ((Except.error () : Except Unit NTree) = Except.error ()) ↔ true = true :=
  claim_C8_fixer_contract.2 10 none (some "R".data) none
    [NTree.node none (some "I".data) (some (mkRat 10000005 100000000))
      [NTree.node (some "L".data) none (some (mkRat 89999995 100000000)) []]]
    2 (mkRat 1 1000000) (Except.error ()) true
    (List.cons_ne_nil _ _) (by decide) rfl rfl

/-- The exponential spacing sum is positive. -/
theorem expSum_pos (m : ℝ) (k : ℕ) : 0 < expSum m k := by
  rw [expSum]
  exact Finset.sum_pos (fun i _ => Real.exp_pos _) ⟨0, Finset.mem_range.2 (Nat.succ_pos _)⟩

/-- The exponential spacing sum is at least `1` (its first term is
`exp 0`). -/
theorem one_le_expSum (m : ℝ) (k : ℕ) : 1 ≤ expSum m k := by
  rw [expSum]
  have h0 : (0 : ℕ) ∈ Finset.range (k + 1) := Finset.mem_range.2 (Nat.succ_pos _)
  calc (1 : ℝ) = Real.exp (m * ((0 : ℕ) / (k : ℝ))) := by simp
    _ ≤ _ :=
      Finset.single_le_sum (f := fun i : ℕ => Real.exp (m * ((i : ℝ) / (k : ℝ))))
        (fun i _ => le_of_lt (Real.exp_pos _)) h0

/-- The first cumulative spacing fraction is positive. -/
theorem muFraction_pos (m : ℝ) (k : ℕ) : 0 < muFraction m k :=
  div_pos one_pos (expSum_pos m k)

/-- The first cumulative spacing fraction is at most `1`. -/
theorem muFraction_le_one (m : ℝ) (k : ℕ) : muFraction m k ≤ 1 := by
  rw [muFraction, div_le_one (expSum_pos m k)]
  exact one_le_expSum m k

/-- Interpolating from `A` towards `0` by a fraction in `(0, 1]` stays
inside `[0, A]`. -/
theorem interp_mem (A f : ℝ) (hA : 0 ≤ A) (hf0 : 0 < f) (hf1 : f ≤ 1) :
    0 ≤ A - (A - 0) * f ∧ A - (A - 0) * f ≤ A := by
  constructor <;> nlinarith

/-- Merging a child's returned `[date, length]` pair into the running
longest-path maximum keeps oldest date `0` and pushes the length to at
least `1`. -/
theorem mergeL_spec (a r : ℝ × ℤ) (ha1 : a.1 = 0) (hr1 : r.1 = 0) (hr2 : 1 ≤ r.2) :
    (pyMaxPair a r).1 = 0 ∧ 1 ≤ (pyMaxPair a r).2 := by
  rw [pyMaxPair]
  split
  · exact ⟨hr1, hr2⟩
  · rename_i h
    push_neg at h
    have h2 : r.2 ≤ a.2 := h.2 (by rw [ha1, hr1])
    exact ⟨ha1, le_trans hr2 h2⟩

/-- Merging into the running shortest-path maximum keeps oldest date `0`
and length at least `1` (the seed sentinel `1e8` already is). -/
theorem mergeS_spec (a r : ℝ × ℤ) (ha1 : a.1 = 0) (ha2 : 1 ≤ a.2) (hr1 : r.1 = 0)
    (hr2 : 1 ≤ r.2) :
    (pyMaxShortPair a r).1 = 0 ∧ 1 ≤ (pyMaxShortPair a r).2 := by
  rw [pyMaxShortPair]
  split
  · exact ⟨hr1, hr2⟩
  · exact ⟨ha1, ha2⟩

/-- What the labelling sweep guarantees on `Proper` forests: all
labelled nodes satisfy `LabelledLT` and the returned accumulator pairs
carry oldest date `0` with path length at least `1` once any sibling has
been folded in. -/
theorem labelForest_spec :
    ∀ (fuel : ℕ) (f : List DTree) (accL accS : ℝ × ℤ)
      (out : List LTree × (ℝ × ℤ) × (ℝ × ℤ)),
      (∀ t ∈ f, Proper t) →
      accL.1 = 0 → accS.1 = 0 → 1 ≤ accS.2 →
      labelForest fuel f accL accS = some out →
      (∀ lt ∈ out.1, LabelledLT lt) ∧
      out.2.1.1 = 0 ∧ out.2.2.1 = 0 ∧ 1 ≤ out.2.2.2 ∧
      (1 ≤ accL.2 → 1 ≤ out.2.1.2) ∧
      (f ≠ [] → 1 ≤ out.2.1.2) := by
  intro fuel
  induction fuel with
  | zero => intro f accL accS out _ _ _ _ h; simp [labelForest] at h
  | succ n ih =>
    intro f accL accS out hp haL1 haS1 haS2 hlf
    match f with
    | [] =>
      simp only [labelForest, Option.some.injEq] at hlf
      subst hlf
      exact ⟨by simp, haL1, haS1, haS2, fun h => h, fun h => absurd rfl h⟩
    | DTree.node date children :: rest =>
      have hphead := hp _ (List.mem_cons_self _ _)
      simp only [labelForest] at hlf
      cases hphead with
      | leaf =>
        simp only [List.isEmpty_nil, if_true, reduceIte] at hlf
        have hmL := mergeL_spec accL (0, 1) haL1 rfl (by norm_num)
        have hmS := mergeS_spec accS (0, 1) haS1 haS2 rfl (by norm_num)
        cases hrest : labelForest n rest (pyMaxPair accL (0, 1)) (pyMaxShortPair accS (0, 1)) with
        | none => rw [hrest] at hlf; simp at hlf
        | some orest =>
          rw [hrest] at hlf
          obtain ⟨lts, accL2, accS2⟩ := orest
          have hihr := ih rest (pyMaxPair accL (0, 1)) (pyMaxShortPair accS (0, 1))
            (lts, accL2, accS2) (fun t ht => hp t (List.mem_cons_of_mem _ ht))
            hmL.1 hmS.1 hmS.2 hrest
          simp only [Option.some.injEq] at hlf
          subst hlf
          refine ⟨?_, hihr.2.1, hihr.2.2.1, hihr.2.2.2.1, ?_, ?_⟩
          · intro lt hlt
            cases hlt with
            | head => exact LabelledLT.leaf
            | tail _ hmem => exact hihr.1 lt hmem
          · intro _
            exact hihr.2.2.2.2.1 hmL.2
          · intro _
            exact hihr.2.2.2.2.1 hmL.2
      | internal x hcs hne =>
        have hce : children.isEmpty = false := by
          cases children with
          | nil => exact absurd rfl hne
          | cons c cs2 => rfl
        simp only [hce, Bool.false_eq_true, if_false] at hlf
        cases hchild : labelForest n children (0, -100000000) (0, 100000000) with
        | none => rw [hchild] at hlf; simp at hlf
        | some ochild =>
          rw [hchild] at hlf
          obtain ⟨lcs, opl, ops⟩ := ochild
          have hihc := ih children (0, -100000000) (0, 100000000) (lcs, opl, ops) hcs
            rfl rfl (by norm_num) hchild
          have hoplen : 1 ≤ opl.2 := hihc.2.2.2.2.2 hne
          have hopsen : 1 ≤ ops.2 := hihc.2.2.2.1
          dsimp only at hlf
          have hmL := mergeL_spec accL (opl.1, opl.2 + 1) haL1 hihc.2.1 (by dsimp; omega)
          have hmS := mergeS_spec accS (ops.1, ops.2 + 1) haS1 haS2 hihc.2.2.1 (by dsimp; omega)
          cases hrest : labelForest n rest (pyMaxPair accL (opl.1, opl.2 + 1))
              (pyMaxShortPair accS (ops.1, ops.2 + 1)) with
          | none => rw [hrest] at hlf; simp at hlf
          | some orest =>
            rw [hrest] at hlf
            obtain ⟨lts, accL2, accS2⟩ := orest
            have hihr := ih rest (pyMaxPair accL (opl.1, opl.2 + 1))
              (pyMaxShortPair accS (ops.1, ops.2 + 1)) (lts, accL2, accS2)
              (fun t ht => hp t (List.mem_cons_of_mem _ ht)) hmL.1 hmS.1 hmS.2 hrest
            simp only [Option.some.injEq] at hlf
            subst hlf
            refine ⟨?_, hihr.2.1, hihr.2.2.1, hihr.2.2.2.1, ?_, ?_⟩
            · intro lt hlt
              cases hlt with
              | head =>
                exact LabelledLT.internal opl ops lcs hihc.2.1 hoplen hihc.2.2.1 hopsen
                  hihc.1
              | tail _ hmem => exact hihr.1 lt hmem
            · intro _
              exact hihr.2.2.2.2.1 hmL.2
            · intro _
              exact hihr.2.2.2.2.1 hmL.2

/-- The imputation sweep keeps every date inside `[0, parent date]`:
undated nodes get a convex combination of the long- and short-path
interpolants, each of which backs off from the parent date by a positive
fraction of the gap down to `0`. -/
theorem imputeForest_spec (l m : ℝ) (hl0 : 0 ≤ l) (hl1 : l ≤ 1) :
    ∀ (fuel : ℕ) (lts : List LTree) (A : ℝ) (its : List ITree),
      0 ≤ A →
      (∀ lt ∈ lts, LabelledLT lt) →
      imputeForest l m fuel lts A = some its →
      ∀ it ∈ its, OrderedIT A it := by
  intro fuel
  induction fuel with
  | zero => intro lts A its _ _ h; simp [imputeForest] at h
  | succ n ih =>
    intro lts A its hA hlab him
    match lts with
    | [] =>
      simp only [imputeForest, Option.some.injEq] at him
      subst him
      simp
    | LTree.node date opl ops children :: rest =>
      have hlabhead := hlab _ (List.mem_cons_self _ _)
      simp only [imputeForest] at him
      cases hlabhead with
      | leaf =>
        dsimp only at him
        cases hic : imputeForest l m n [] 0 with
        | none => rw [hic] at him; simp at him
        | some ics =>
          rw [hic] at him
          cases hir : imputeForest l m n rest A with
          | none => rw [hir] at him; simp at him
          | some irest =>
            rw [hir] at him
            simp only [Option.some.injEq] at him
            subst him
            intro it hit
            cases hit with
            | head =>
              refine OrderedIT.mk A 0 ics le_rfl hA ?_
              have : ics = [] := by
                cases n with
                | zero => simp [imputeForest] at hic
                | succ n2 =>
                  simp only [imputeForest, Option.some.injEq] at hic
                  exact hic.symm
              subst this
              simp
            | tail _ hmem =>
              exact ih rest A irest hA (fun t ht => hlab t (List.mem_cons_of_mem _ ht)) hir
                it hmem
      | internal p q cs2 h1 h2 h3 h4 h5 =>
        dsimp only at him
        have hfL := muFraction_pos m opl.2.toNat
        have hfL1 := muFraction_le_one m opl.2.toNat
        have hfS := muFraction_pos m ops.2.toNat
        have hfS1 := muFraction_le_one m ops.2.toNat
        set dl := A - (A - opl.1) * muFraction m opl.2.toNat with hdl
        set ds := A - (A - ops.1) * muFraction m ops.2.toNat with hds
        have hdlmem : 0 ≤ dl ∧ dl ≤ A := by
          rw [hdl, h1]
          constructor <;> nlinarith
        have hdsmem : 0 ≤ ds ∧ ds ≤ A := by
          rw [hds, h3]
          constructor <;> nlinarith
        have hd0 : 0 ≤ l * dl + (1 - l) * ds := by nlinarith [hdlmem.1, hdsmem.1]
        have hdA : l * dl + (1 - l) * ds ≤ A := by nlinarith [hdlmem.2, hdsmem.2]
        cases hic : imputeForest l m n children (l * dl + (1 - l) * ds) with
        | none => rw [hic] at him; simp at him
        | some ics =>
          rw [hic] at him
          cases hir : imputeForest l m n rest A with
          | none => rw [hir] at him; simp at him
          | some irest =>
            rw [hir] at him
            simp only [Option.some.injEq] at him
            subst him
            intro it hit
            cases hit with
            | head =>
              exact OrderedIT.mk A _ ics hd0 hdA
                (ih children _ ics hd0 h5 hic)
            | tail _ hmem =>
              exact ih rest A irest hA (fun t ht => hlab t (List.mem_cons_of_mem _ ht)) hir
                it hmem

/-- On a date-ordered forest the branch-length sweep never raises. -/
theorem cblForest_ok :
    ∀ (fuel : ℕ) (its : List ITree) (A : ℝ) (r : Except Unit (List BTree)),
      (∀ it ∈ its, OrderedIT A it) →
      cblForest fuel its A = some r →
      ∃ x, r = Except.ok x := by
  intro fuel
  induction fuel with
  | zero => intro its A r _ h; simp [cblForest] at h
  | succ n ih =>
    intro its A r hord hc
    match its with
    | [] =>
      simp only [cblForest, Option.some.injEq] at hc
      exact ⟨[], hc.symm⟩
    | ITree.node d cs :: rest =>
      have hohead := hord _ (List.mem_cons_self _ _)
      cases hohead with
      | mk _ _ _ hd0 hdA hkids =>
        simp only [cblForest] at hc
        rw [if_neg (by linarith : ¬ A - d < 0)] at hc
        cases hcc : cblForest n cs d with
        | none => rw [hcc] at hc; simp at hc
        | some rc =>
          rw [hcc] at hc
          obtain ⟨xc, hxc⟩ := ih cs d rc hkids hcc
          subst hxc
          cases hcr : cblForest n rest A with
          | none => rw [hcr] at hc; simp at hc
          | some rr =>
            rw [hcr] at hc
            obtain ⟨xr, hxr⟩ := ih rest A rr
              (fun t ht => hord t (List.mem_cons_of_mem _ ht)) hcr
            subst hxr
            simp only [Option.some.injEq] at hc
            exact ⟨_, hc.symm⟩

/-- C7: on a tree whose root is dated `D ≥ 0` and whose other nodes are
dated `0` exactly at the leaves, after `date_labelling` and
`impute_missing_dates` (with interpolation weight `l ∈ [0, 1]` and any
exponent `m`) every node's age lies in `[0, parent age]` — the oldest
dated age beneath any undated node is `0` here, so each imputed age lies
between that and the parent's age, and no child is ever older than its
parent — and consequently `compute_branch_lengths` never raises. -/
theorem claim_C7_date_imputation :
    ∀ (l m : ℝ) (fuel1 fuel2 fuel3 : ℕ) (D : ℝ) (cs : List DTree) (lt : LTree) (it : ITree)
      (r : Except Unit (ℝ × List BTree)),
      0 ≤ l → l ≤ 1 → 0 ≤ D →
      (∀ c ∈ cs, Proper c) →
      dateLabelling fuel1 (DTree.node (some D) cs) = some lt →
      imputeTree l m fuel2 lt = some it →
      (it.date = D ∧ ∀ c ∈ it.children, OrderedIT it.date c) ∧
      (computeBranchLengths fuel3 it = some r → ∃ x, r = Except.ok x) := by
  intro l m fuel1 fuel2 fuel3 D cs lt it r hl0 hl1 hD hp hdl himp
  simp only [dateLabelling] at hdl
  cases hfl : labelForest fuel1 [DTree.node (some D) cs] (0, -100000000) (0, 100000000) with
  | none => rw [hfl] at hdl; simp at hdl
  | some out =>
    rw [hfl] at hdl
    obtain ⟨lts, aL, aS⟩ := out
    match lts, hdl with
    | lt0 :: lts2, hdl =>
      simp only [Option.some.injEq] at hdl
      subst hdl
      -- analyze the head processing of the root
      cases fuel1 with
      | zero => simp [labelForest] at hfl
      | succ n =>
        simp only [labelForest] at hfl
        have hkey : ∃ lcs, lt0 = LTree.node (some D) (D, 0) (D, 0) lcs ∧
            ∀ lc ∈ lcs, LabelledLT lc := by
          cases cs with
          | nil =>
            simp only [List.isEmpty_nil, reduceIte] at hfl
            cases hrest : labelForest n [] (pyMaxPair (0, -100000000) (D, 1))
                (pyMaxShortPair (0, 100000000) (D, 1)) with
            | none => rw [hrest] at hfl; simp at hfl
            | some orest =>
              rw [hrest] at hfl
              obtain ⟨l2, a2, b2⟩ := orest
              simp only [Option.some.injEq, Prod.mk.injEq, List.cons.injEq] at hfl
              exact ⟨[], hfl.1.1.symm, by simp⟩
          | cons c0 cs2 =>
            simp only [List.isEmpty_cons, Bool.false_eq_true, if_false] at hfl
            cases hchild : labelForest n (c0 :: cs2) (0, -100000000) (0, 100000000) with
            | none => rw [hchild] at hfl; simp at hfl
            | some ochild =>
              rw [hchild] at hfl
              obtain ⟨lcs, opl, ops⟩ := ochild
              have hspec := labelForest_spec n (c0 :: cs2) (0, -100000000) (0, 100000000)
                (lcs, opl, ops) hp rfl rfl (by norm_num) hchild
              dsimp only at hfl
              cases hrest : labelForest n [] (pyMaxPair (0, -100000000) (D, 1))
                  (pyMaxShortPair (0, 100000000) (D, 1)) with
              | none => rw [hrest] at hfl; simp at hfl
              | some orest =>
                rw [hrest] at hfl
                obtain ⟨l2, a2, b2⟩ := orest
                simp only [Option.some.injEq, Prod.mk.injEq, List.cons.injEq] at hfl
                exact ⟨lcs, hfl.1.1.symm, hspec.1⟩
        obtain ⟨lcs, hlt0, hlabs⟩ := hkey
        subst hlt0
        simp only [imputeTree] at himp
        cases hic : imputeForest l m fuel2 lcs D with
        | none => rw [hic] at himp; simp at himp
        | some ics =>
          rw [hic] at himp
          simp only [Option.some.injEq] at himp
          subst himp
          have hord : ∀ c ∈ ics, OrderedIT D c :=
            imputeForest_spec l m hl0 hl1 fuel2 lcs D ics hD hlabs hic
          refine ⟨⟨rfl, ?_⟩, ?_⟩
          · intro c hc
            exact hord c hc
          · intro hcb
            simp only [computeBranchLengths] at hcb
            cases hcf : cblForest fuel3 ics D with
            | none => rw [hcf] at hcb; simp at hcb
            | some rc =>
              rw [hcf] at hcb
              obtain ⟨x, hx⟩ := cblForest_ok fuel3 ics D rc hord hcf
              subst hx
              simp only [Option.some.injEq] at hcb
              exact ⟨_, hcb.symm⟩

/-- Witness for C7: the pipeline run on the two-node tree `root(1) →
leaf(0)` with `l = 1/4`, `m = 2`: labelling and imputation complete, the
dates stay ordered and the branch-length pass returns `ok`. -/
theorem claim_C7_date_imputation_witness :
    ((ITree.node 1 [ITree.node 0 []]).date = 1 ∧
      ∀ c ∈ (ITree.node 1 [ITree.node 0 []]).children,
        OrderedIT (ITree.node 1 [ITree.node 0 []]).date c) ∧
    (computeBranchLengths 2 (ITree.node 1 [ITree.node 0 []]) =
        some (Except.ok (1, [BTree.node 0 1 []])) →
      ∃ x, (Except.ok (1, [BTree.node 0 1 []]) : Except Unit (ℝ × List BTree)) =
        Except.ok x) :=
  claim_C7_date_imputation (1/4) 2 3 2 2 1 [DTree.node (some 0) []]
    (LTree.node (some 1) (1, 0) (1, 0) [LTree.node (some 0) (0, 0) (0, 0) []])
    (ITree.node 1 [ITree.node 0 []]) (Except.ok (1, [BTree.node 0 1 []]))
    (by norm_num) (by norm_num) (by norm_num)
    (by intro c hc; rw [List.mem_singleton] at hc; subst hc; exact Proper.leaf)
    rfl rfl

end OneZoom
